import Mathlib

/-!
# thamaji/maps: generic operations over Go maps

A shallow embedding of `maps.go` and `utils.go`.

A Go `map[K]V` is represented by the list of its entries, written in the order
in which a `for k, v := range m` loop enumerates them during the call under
consideration.  The keys of a map are pairwise distinct (`WF`).  Go leaves the
enumeration order unspecified, so two lists that are permutations of each other
stand for the same map enumerated in two different orders; statements "for
every enumeration order" quantify over all such permutations.

`m[k] = v` is `store`, `v, ok := m[k]` is `index`, `make(map[K]V, n)` is `make`
(the capacity hint has no observable effect), `*new(V)` is `default`.
-/

namespace Maps

/-- Modelled from the spec: the declaration of the `Entry` type is not among the
source files.  The spec calls it "an immutable (key, value) pair"; the field names
`Key` and `Value` are the ones `FromEntries` reads. -/
structure Entry (K V : Type) where
  Key : K
  Value : V
deriving DecidableEq, Repr

/-- A Go `map[K]V`: its entries in enumeration order. -/
abbrev GoMap (K V : Type) := List (Entry K V)

section Model

variable {K V V2 : Type}

/-- The key list of a map, in enumeration order. -/
def keysOf (m : GoMap K V) : List K := m.map Entry.Key

/-- The value list of a map, in enumeration order. -/
def valuesOf (m : GoMap K V) : List V := m.map Entry.Value

/-- Well-formedness of a map: no key occurs twice. -/
def WF (m : GoMap K V) : Prop := (keysOf m).Nodup

instance instDecidableWF [DecidableEq K] (m : GoMap K V) : Decidable (WF m) :=
  inferInstanceAs (Decidable (keysOf m).Nodup)

/-- The call `make(map[K]V, n)`: a fresh empty map. -/
def make : GoMap K V := []

/-- The builtin `len(m)`. -/
def len (m : GoMap K V) : Nat := m.length

/-- The lookup `v, ok := m[k]`; `none` stands for `ok == false`. -/
def index [DecidableEq K] : GoMap K V → K → Option V
  | [], _ => none
  | e :: t, k => if e.Key = k then some e.Value else index t k

/-- The assignment `m[k] = v`: overwrite the value of an existing key, or add a
new entry. -/
def store [DecidableEq K] : GoMap K V → K → V → GoMap K V
  | [], k, v => [⟨k, v⟩]
  | e :: t, k, v => if e.Key = k then ⟨k, v⟩ :: t else e :: store t k v

/-- The expression `m[k]` used as a value: the zero value when `k` is absent. -/
def indexOrZero [DecidableEq K] [Inhabited V] (m : GoMap K V) (k : K) : V :=
  (index m k).getD default

/-- The common shape of the loops that build a result map: the entries satisfying
`p` are stored, with their value transformed by `g`, into `dst`.  It is used to
state lemmas shared by those loops; no source function is defined through it. -/
def selectLoop [DecidableEq K] (p : Entry K V → Prop) [DecidablePred p]
    (g : Entry K V → V2) (dst : GoMap K V2) (es : List (Entry K V)) : GoMap K V2 :=
  es.foldl (fun d e => if p e then store d e.Key (g e) else d) dst

end Model

section Source

variable {K V V1 V2 : Type}

/-- Source `Get` (maps.go 6-9). -/
def Get [DecidableEq K] [Inhabited V] (m : GoMap K V) (k : K) : V × Bool :=
  match index m k with
  | some v => (v, true)
  | none => (default, false)

/-- Source `Keys` (maps.go 20-26). -/
def Keys (m : GoMap K V) : List K :=
  m.foldl (fun dst e => dst ++ [e.Key]) []

/-- Source `Entries` (maps.go 38-44). -/
def Entries (m : GoMap K V) : List (Entry K V) :=
  m.foldl (fun dst e => dst ++ [Entry.mk e.Key e.Value]) []

/-- Source `FromEntries` (utils.go 4-10). -/
def FromEntries [DecidableEq K] (entries : List (Entry K V)) : GoMap K V :=
  entries.foldl (fun m e => store m e.Key e.Value) make

/-- Source `Clean` (maps.go 119-128). -/
def Clean [DecidableEq K] [DecidableEq V] [Inhabited V] (m : GoMap K V) : GoMap K V :=
  let zero : V := default
  m.foldl (fun dst e => if e.Value ≠ zero then store dst e.Key e.Value else dst) make

/-- Source `Reduce` (maps.go 140-152).  The loop state is the pair of the local
variables `v` and `head`. -/
def Reduce [Inhabited V] (m : GoMap K V) (f : V → K → V → V) : V :=
  (m.foldl
    (fun (st : V × Bool) e =>
      if st.2 then (e.Value, false) else (f st.1 e.Key e.Value, st.2))
    (default, true)).1

/-- Source `Fold` (maps.go 155-160). -/
def Fold (m : GoMap K V1) (v : V2) (f : V2 → K → V1 → V2) : V2 :=
  m.foldl (fun v e => f v e.Key e.Value) v

/-- Source `Partition` (maps.go 238-249). -/
def Partition [DecidableEq K] [DecidableEq V] (m : GoMap K V) (v : V) :
    GoMap K V × GoMap K V :=
  m.foldl
    (fun (dst : GoMap K V × GoMap K V) e =>
      if e.Value = v then (store dst.1 e.Key e.Value, dst.2)
      else (dst.1, store dst.2 e.Key e.Value))
    (make, make)

/-- Source `PartitionBy` (maps.go 252-263). -/
def PartitionBy [DecidableEq K] (m : GoMap K V) (f : K → V → Bool) :
    GoMap K V × GoMap K V :=
  m.foldl
    (fun (dst : GoMap K V × GoMap K V) e =>
      if f e.Key e.Value then (store dst.1 e.Key e.Value, dst.2)
      else (dst.1, store dst.2 e.Key e.Value))
    (make, make)

/-- Source `Fill` (maps.go 330-334).  The loop ranges over the keys of `m` and
assigns into `m` itself; assigning to an existing key does not change the set of
keys still to be visited. -/
def Fill [DecidableEq K] (m : GoMap K V) (v : V) : GoMap K V :=
  (keysOf m).foldl (fun cur k => store cur k v) m

/-- Source `FillZero` (maps.go 337-342). -/
def FillZero [DecidableEq K] [Inhabited V] (m : GoMap K V) : GoMap K V :=
  let zero : V := default
  (keysOf m).foldl (fun cur k => store cur k zero) m

/-- Source `FillBy` (maps.go 345-349). -/
def FillBy [DecidableEq K] (m : GoMap K V) (f : K → V) : GoMap K V :=
  (keysOf m).foldl (fun cur k => store cur k (f k)) m

/-- Source `Max` (maps.go 280-287). -/
def Max [LinearOrder V] [Inhabited V] (m : GoMap K V) : V :=
  Reduce m (fun max _ v => if max < v then v else max)

/-- Source `Min` (maps.go 305-312). -/
def Min [LinearOrder V] [Inhabited V] (m : GoMap K V) : V :=
  Reduce m (fun min _ v => if min > v then v else min)

/-- Source `GetOrElse` (maps.go 12-17).  The inner `v` of `if v, ok := m[k]; ok`
shadows the parameter `v` only inside the `if`. -/
def GetOrElse [DecidableEq K] (m : GoMap K V) (k : K) (v : V) : V :=
  match index m k with
  | some v1 => v1
  | none => v

/-- The call `Get(m, k)` as a transformer of the map variable: the results, and the
map the call leaves behind.  The body of `Get` contains no assignment into `m` and
no `delete`. -/
def GetRun [DecidableEq K] [Inhabited V] (m : GoMap K V) (k : K) : (V × Bool) × GoMap K V :=
  (Get m k, m)

/-- The call `GetOrElse(m, k, v)` as a transformer of the map variable: the result,
and the map the call leaves behind.  The body of `GetOrElse` contains no assignment
into `m` and no `delete`. -/
def GetOrElseRun [DecidableEq K] (m : GoMap K V) (k : K) (v : V) : V × GoMap K V :=
  (GetOrElse m k v, m)

/-- The standard library's `(*rand.Rand).Intn` is not part of the repository; a random
source is represented by the raw number it yields when asked for a bound. -/
abbrev Rand := Nat → Nat

/-- The call `r.Intn(n)`, by the documented contract of `math/rand`: it panics
(`none`) when `n <= 0`, and otherwise returns a number of the interval `[0, n)`. -/
def Intn (r : Rand) (n : Nat) : Option Nat :=
  if n = 0 then none else some (r n % n)

/-- The loop of `Sample` (maps.go 67-72) over the entries still to be enumerated, with
the current values of `i` and `k`; the result is `k` when the loop is left. -/
def sampleLoop (n : Nat) : List (Entry K V) → Nat → K → K
  | [], _, k => k
  | e :: t, i, _ => if i = n then e.Key else sampleLoop n t (i + 1) e.Key

/-- Source `Sample` (maps.go 64-74); `none` is the panic of `r.Intn(0)`. -/
def Sample [DecidableEq K] [Inhabited K] [Inhabited V] (m : GoMap K V) (r : Rand) :
    Option V :=
  match Intn r (len m) with
  | none => none
  | some n => some (indexOrZero m (sampleLoop n m 0 default))

/-- Source `Contains` (maps.go 77-84). -/
def Contains [DecidableEq V] : GoMap K V → V → Bool
  | [], _ => false
  | e :: t, v => if e.Value = v then true else Contains t v

/-- Source `ContainsBy` (maps.go 87-94). -/
def ContainsBy : GoMap K V → (K → V → Bool) → Bool
  | [], _ => false
  | e :: t, f => if f e.Key e.Value then true else ContainsBy t f

/-- Source `Map` (maps.go 131-137). -/
def Map [DecidableEq K] (m : GoMap K V1) (f : K → V1 → V2) : GoMap K V2 :=
  m.foldl (fun dst e => store dst e.Key (f e.Key e.Value)) make

/-- Source `Find` (maps.go 163-170). -/
def Find [DecidableEq V] [Inhabited K] [Inhabited V] : GoMap K V → V → Entry K V × Bool
  | [], _ => (⟨default, default⟩, false)
  | e :: t, v => if v = e.Value then (⟨e.Key, e.Value⟩, true) else Find t v

/-- Source `FindBy` (maps.go 173-180). -/
def FindBy [Inhabited K] [Inhabited V] : GoMap K V → (K → V → Bool) → Entry K V × Bool
  | [], _ => (⟨default, default⟩, false)
  | e :: t, f => if f e.Key e.Value then (⟨e.Key, e.Value⟩, true) else FindBy t f

/-- Source `Filter` (maps.go 183-191). -/
def Filter [DecidableEq K] [DecidableEq V] (m : GoMap K V) (v : V) : GoMap K V :=
  m.foldl (fun dst e => if e.Value = v then store dst e.Key e.Value else dst) make

/-- Source `FilterBy` (maps.go 194-202). -/
def FilterBy [DecidableEq K] (m : GoMap K V) (f : K → V → Bool) : GoMap K V :=
  m.foldl (fun dst e => if f e.Key e.Value then store dst e.Key e.Value else dst) make

/-- Source `FilterNot` (maps.go 205-213). -/
def FilterNot [DecidableEq K] [DecidableEq V] (m : GoMap K V) (v : V) : GoMap K V :=
  m.foldl (fun dst e => if e.Value ≠ v then store dst e.Key e.Value else dst) make

/-- Source `FilterNotBy` (maps.go 216-224). -/
def FilterNotBy [DecidableEq K] (m : GoMap K V) (f : K → V → Bool) : GoMap K V :=
  m.foldl (fun dst e => if !f e.Key e.Value then store dst e.Key e.Value else dst) make

/-- Source `Collect` (maps.go 227-235). -/
def Collect [DecidableEq K] (m : GoMap K V1) (f : K → V1 → V2 × Bool) : GoMap K V2 :=
  m.foldl (fun dst e => if (f e.Key e.Value).2 then store dst e.Key (f e.Key e.Value).1 else dst)
    make

/-- Source `MaxBy` (maps.go 290-302).  The closure passed to `Fold` captures the
variable `head` and assigns to it; the accumulator of `Fold` carries it together
with `max`. -/
def MaxBy [LinearOrder V2] [Inhabited V2] (m : GoMap K V1) (f : K → V1 → V2) : V2 :=
  (Fold m ((default : V2), true)
    (fun (st : V2 × Bool) k v =>
      if st.2 then (f k v, false)
      else if st.1 < f k v then (f k v, st.2) else (st.1, st.2))).1

/-- Source `MinBy` (maps.go 315-327), with `head` carried like in `MaxBy`. -/
def MinBy [LinearOrder V2] [Inhabited V2] (m : GoMap K V1) (f : K → V1 → V2) : V2 :=
  (Fold m ((default : V2), true)
    (fun (st : V2 × Bool) k v =>
      if st.2 then (f k v, false)
      else if st.1 > f k v then (f k v, st.2) else (st.1, st.2))).1

end Source

section GoInt

/-- Smallest value of Go's `int` on a 64-bit target. -/
def minInt : Int := -9223372036854775808

/-- Largest value of Go's `int` on a 64-bit target. -/
def maxInt : Int := 9223372036854775807

/-- A mathematical integer that is representable as a Go `int`. -/
def IsInt (x : Int) : Prop := minInt ≤ x ∧ x ≤ maxInt

instance instDecidableIsInt (x : Int) : Decidable (IsInt x) :=
  inferInstanceAs (Decidable (minInt ≤ x ∧ x ≤ maxInt))

/-- Two's-complement wrap-around of a mathematical integer into the range of `int`. -/
def wrapInt (x : Int) : Int := (x + 9223372036854775808) % 18446744073709551616 - 9223372036854775808

/-- Go's `+` on `int`: the sum wraps around on overflow. -/
def addInt (a b : Int) : Int := wrapInt (a + b)

/-- Source `Sum` (maps.go 266-270) at the value type `int`. -/
def Sum {K : Type} (m : GoMap K Int) : Int :=
  Reduce m (fun sum _ v => addInt sum v)

/-- Source `SumBy` (maps.go 273-277) at the result type `int`. -/
def SumBy {K V1 : Type} (m : GoMap K V1) (f : K → V1 → Int) : Int :=
  Fold m (default : Int) (fun sum k v => addInt sum (f k v))

/-- Source `Count` (maps.go 97-105); the counter is a Go `int` and `c++` is Go's
addition. -/
def Count {K V : Type} [DecidableEq V] (m : GoMap K V) (v : V) : Int :=
  m.foldl (fun c e => if e.Value = v then addInt c 1 else c) 0

/-- Source `CountBy` (maps.go 108-116). -/
def CountBy {K V : Type} (m : GoMap K V) (f : K → V → Bool) : Int :=
  m.foldl (fun c e => if f e.Key e.Value then addInt c 1 else c) 0

end GoInt

/-! ## The map model -/

section ModelLemmas

variable {K V V2 : Type}

theorem index_store [DecidableEq K] (m : GoMap K V) (k k1 : K) (v : V) :
    index (store m k v) k1 = if k = k1 then some v else index m k1 := by
  induction m with
  | nil => simp [store, index]
  | cons e t ih =>
    by_cases h : e.Key = k
    · subst h
      by_cases h1 : e.Key = k1 <;> simp [store, index, h1]
    · simp only [store, if_neg h, index, ih]
      by_cases h1 : e.Key = k1
      · have h2 : ¬ k = k1 := fun hk => h (h1.trans hk.symm)
        simp only [if_pos h1, if_neg h2]
      · simp only [if_neg h1]

theorem keysOf_store [DecidableEq K] (m : GoMap K V) (k : K) (v : V) :
    keysOf (store m k v) = if k ∈ keysOf m then keysOf m else keysOf m ++ [k] := by
  induction m with
  | nil => simp [store, keysOf]
  | cons e t ih =>
    by_cases h : e.Key = k
    · subst h
      simp [store, keysOf]
    · have h1 : ¬ k = e.Key := fun hk => h hk.symm
      simp only [keysOf] at ih
      by_cases h2 : k ∈ List.map Entry.Key t <;> simp [store, keysOf, h, h1, h2, ih]

theorem store_of_not_mem [DecidableEq K] (m : GoMap K V) (k : K) (v : V)
    (h : k ∉ keysOf m) : store m k v = m ++ [⟨k, v⟩] := by
  induction m with
  | nil => rfl
  | cons e t ih =>
    have h1 : ¬ e.Key = k := fun hk => h (by simp [keysOf, hk.symm])
    have h2 : k ∉ keysOf t := fun hk => h (by simp only [keysOf] at hk; simp [keysOf, hk])
    simp [store, h1, ih h2]

theorem mem_keysOf_iff (m : GoMap K V) (k : K) :
    k ∈ keysOf m ↔ ∃ v, (⟨k, v⟩ : Entry K V) ∈ m := by
  unfold keysOf
  constructor
  · intro h
    obtain ⟨e, he, hk⟩ := List.mem_map.1 h
    subst hk
    exact ⟨e.Value, he⟩
  · rintro ⟨v, hv⟩
    exact List.mem_map.2 ⟨⟨k, v⟩, hv, rfl⟩

theorem index_eq_none_iff [DecidableEq K] (m : GoMap K V) (k : K) :
    index m k = none ↔ k ∉ keysOf m := by
  induction m with
  | nil => simp [index, keysOf]
  | cons e t ih =>
    simp only [keysOf] at ih
    by_cases h : e.Key = k
    · simp [index, keysOf, h]
    · have h1 : ¬ k = e.Key := fun hk => h hk.symm
      simp [index, keysOf, h, h1, ih]

theorem index_eq_some_iff [DecidableEq K] (m : GoMap K V) (hm : WF m) (k : K) (v : V) :
    index m k = some v ↔ (⟨k, v⟩ : Entry K V) ∈ m := by
  induction m with
  | nil => simp [index]
  | cons e t ih =>
    have hnd : e.Key ∉ keysOf t ∧ WF t := by
      simpa [WF, keysOf] using hm
    by_cases h : e.Key = k
    · subst h
      simp only [index, if_true, List.mem_cons, Option.some.injEq]
      constructor
      · intro hv
        left
        rw [← hv]
      · rintro (hv | hv)
        · exact (congrArg Entry.Value hv).symm
        · exact absurd ((mem_keysOf_iff t e.Key).2 ⟨v, hv⟩) hnd.1
    · have h1 : (⟨k, v⟩ : Entry K V) ≠ e := fun hk => h (by rw [← hk])
      simp [index, h, h1, ih hnd.2]

theorem index_perm [DecidableEq K] (m es : GoMap K V) (hm : WF m) (hp : es.Perm m) (k : K) :
    index es k = index m k := by
  have hes : WF es := by
    unfold WF keysOf
    exact ((hp.map Entry.Key).nodup_iff).2 hm
  apply Option.ext
  intro v
  simp only [Option.mem_def]
  rw [index_eq_some_iff es hes, index_eq_some_iff m hm]
  exact hp.mem_iff

theorem WF_cons (e : Entry K V) (t : GoMap K V) :
    WF (e :: t) ↔ e.Key ∉ keysOf t ∧ WF t := by
  simp [WF, keysOf]

theorem WF_filter (m : GoMap K V) (hm : WF m) (q : Entry K V → Bool) : WF (m.filter q) := by
  unfold WF keysOf at *
  exact hm.sublist ((List.filter_sublist m).map Entry.Key)

theorem WF_perm (m es : GoMap K V) (hm : WF m) (hp : es.Perm m) : WF es := by
  unfold WF keysOf at *
  exact ((hp.map Entry.Key).nodup_iff).2 hm

theorem index_filter [DecidableEq K] (m : GoMap K V) (hm : WF m) (q : Entry K V → Bool)
    (k : K) (x : V) :
    index (m.filter q) k = some x ↔ (index m k = some x ∧ q ⟨k, x⟩ = true) := by
  rw [index_eq_some_iff _ (WF_filter m hm q), index_eq_some_iff _ hm, List.mem_filter]

theorem mem_keysOf_iff_index [DecidableEq K] (m : GoMap K V) (k : K) :
    k ∈ keysOf m ↔ ∃ x, index m k = some x := by
  rw [← not_iff_not, ← index_eq_none_iff]
  cases index m k <;> simp

theorem selectLoop_eq [DecidableEq K] (p : Entry K V → Prop) [DecidablePred p]
    (g : Entry K V → V2) (es : List (Entry K V)) (dst : GoMap K V2)
    (hes : WF es) (hd : ∀ e ∈ es, e.Key ∉ keysOf dst) :
    selectLoop p g dst es
      = dst ++ (es.filter (fun e => decide (p e))).map (fun e => ⟨e.Key, g e⟩) := by
  induction es generalizing dst with
  | nil => simp [selectLoop]
  | cons e t ih =>
    have hnd := (WF_cons e t).1 hes
    have he : e.Key ∉ keysOf dst := hd e (List.mem_cons_self _ _)
    have ht : ∀ x ∈ t, x.Key ∉ keysOf dst := fun x hx => hd x (List.mem_cons_of_mem _ hx)
    unfold selectLoop at ih ⊢
    simp only [List.foldl_cons]
    by_cases hp : p e
    · simp only [if_pos hp]
      rw [store_of_not_mem _ _ _ he, ih _ hnd.2 ?_]
      · simp [List.filter_cons, hp]
      · intro x hx hmem
        have hk : keysOf (dst ++ [(⟨e.Key, g e⟩ : Entry K V2)]) = keysOf dst ++ [e.Key] := by
          simp [keysOf]
        rw [hk] at hmem
        rcases List.mem_append.1 hmem with h1 | h1
        · exact ht x hx h1
        · have h2 : x.Key = e.Key := by simpa using h1
          exact hnd.1 (by rw [← h2]; exact List.mem_map_of_mem _ hx)
    · simp only [if_neg hp]
      rw [ih _ hnd.2 ht]
      simp [List.filter_cons, hp]

theorem selectLoop_make [DecidableEq K] (p : Entry K V → Prop) [DecidablePred p]
    (es : GoMap K V) (hes : WF es) :
    selectLoop p Entry.Value make es = es.filter (fun e => decide (p e)) := by
  rw [selectLoop_eq p Entry.Value es make hes (by simp [make, keysOf])]
  simp only [make, List.nil_append]
  exact List.map_id _

theorem foldl_pair_eq [DecidableEq K] (p : Entry K V → Prop) [DecidablePred p]
    (es : List (Entry K V)) (a b : GoMap K V) :
    es.foldl
      (fun (dst : GoMap K V × GoMap K V) e =>
        if p e then (store dst.1 e.Key e.Value, dst.2)
        else (dst.1, store dst.2 e.Key e.Value))
      (a, b)
      = (selectLoop p Entry.Value a es, selectLoop (fun e => ¬ p e) Entry.Value b es) := by
  induction es generalizing a b with
  | nil => rfl
  | cons e t ih =>
    by_cases hp : p e
    · simp only [List.foldl_cons, if_pos hp, ih]
      simp [selectLoop, hp]
    · simp only [List.foldl_cons, if_neg hp, ih]
      simp [selectLoop, hp]

theorem PartitionBy_eq [DecidableEq K] (m : GoMap K V) (hm : WF m) (f : K → V → Bool) :
    PartitionBy m f
      = (m.filter (fun e => f e.Key e.Value), m.filter (fun e => !f e.Key e.Value)) := by
  unfold PartitionBy
  rw [foldl_pair_eq (fun e => f e.Key e.Value = true) m make make,
    selectLoop_make _ m hm, selectLoop_make _ m hm]
  simp

theorem Partition_eq [DecidableEq K] [DecidableEq V] (m : GoMap K V) (hm : WF m) (v : V) :
    Partition m v
      = (m.filter (fun e => decide (e.Value = v)), m.filter (fun e => !decide (e.Value = v))) := by
  unfold Partition
  rw [foldl_pair_eq (fun e => e.Value = v) m make make,
    selectLoop_make _ m hm, selectLoop_make _ m hm]
  simp

theorem filter_split [DecidableEq K] (m : GoMap K V) (hm : WF m) (q : Entry K V → Bool) :
    (∀ k, ¬ (k ∈ keysOf (m.filter q) ∧ k ∈ keysOf (m.filter (fun e => !q e)))) ∧
    (∀ k, (k ∈ keysOf (m.filter q) ∨ k ∈ keysOf (m.filter (fun e => !q e))) ↔ k ∈ keysOf m) ∧
    (∀ k x, index (m.filter q) k = some x ↔ (index m k = some x ∧ q ⟨k, x⟩ = true)) ∧
    (∀ k x, index (m.filter (fun e => !q e)) k = some x
      ↔ (index m k = some x ∧ q ⟨k, x⟩ = false)) := by
  have ha := index_filter m hm q
  have hb : ∀ k x, index (m.filter (fun e => !q e)) k = some x
      ↔ (index m k = some x ∧ q ⟨k, x⟩ = false) := by
    intro k x
    rw [index_filter m hm (fun e => !q e)]
    simp
  refine ⟨?_, ?_, ha, hb⟩
  · rintro k ⟨h1, h2⟩
    obtain ⟨x, hx⟩ := (mem_keysOf_iff_index _ k).1 h1
    obtain ⟨y, hy⟩ := (mem_keysOf_iff_index _ k).1 h2
    have hx1 := (ha k x).1 hx
    have hy1 := (hb k y).1 hy
    have hxy : x = y := Option.some.inj (hx1.1.symm.trans hy1.1)
    subst hxy
    rw [hx1.2] at hy1
    exact Bool.noConfusion hy1.2
  · intro k
    simp only [mem_keysOf_iff_index]
    constructor
    · rintro (⟨x, hx⟩ | ⟨x, hx⟩)
      · exact ⟨x, ((ha k x).1 hx).1⟩
      · exact ⟨x, ((hb k x).1 hx).1⟩
    · rintro ⟨x, hx⟩
      cases hq : q ⟨k, x⟩
      · exact Or.inr ⟨x, (hb k x).2 ⟨hx, hq⟩⟩
      · exact Or.inl ⟨x, (ha k x).2 ⟨hx, hq⟩⟩

theorem WF_store [DecidableEq K] (m : GoMap K V) (hm : WF m) (k : K) (v : V) :
    WF (store m k v) := by
  unfold WF at *
  rw [keysOf_store]
  by_cases h : k ∈ keysOf m
  · simpa [h] using hm
  · simp only [if_neg h]
    exact List.Nodup.append hm (List.nodup_singleton k) (by simpa using h)

theorem index_foldl_store_of_not_mem [DecidableEq K] (post : List (Entry K V))
    (m : GoMap K V) (k : K) (h : ∀ e ∈ post, e.Key ≠ k) :
    index (post.foldl (fun m e => store m e.Key e.Value) m) k = index m k := by
  induction post generalizing m with
  | nil => rfl
  | cons e t ih =>
    simp only [List.foldl_cons]
    rw [ih _ (fun x hx => h x (List.mem_cons_of_mem _ hx)), index_store,
      if_neg (h e (List.mem_cons_self _ _))]

theorem WF_foldl_store [DecidableEq K] (es : List (Entry K V)) (m : GoMap K V) (hm : WF m) :
    WF (es.foldl (fun m e => store m e.Key e.Value) m) := by
  induction es generalizing m with
  | nil => exact hm
  | cons e t ih => exact ih _ (WF_store m hm e.Key e.Value)

theorem FromEntries_index_absent [DecidableEq K] (es : List (Entry K V)) (k : K)
    (h : ∀ e ∈ es, e.Key ≠ k) : index (FromEntries es) k = none := by
  unfold FromEntries
  rw [index_foldl_store_of_not_mem es make k h]
  rfl

theorem FromEntries_index_last [DecidableEq K] (pre post : List (Entry K V)) (k : K) (v : V)
    (h : ∀ e ∈ post, e.Key ≠ k) :
    index (FromEntries (pre ++ ⟨k, v⟩ :: post)) k = some v := by
  unfold FromEntries
  rw [List.foldl_append, List.foldl_cons, index_foldl_store_of_not_mem post _ k h, index_store,
    if_pos rfl]

theorem FromEntries_index_of_WF [DecidableEq K] (es : List (Entry K V)) (hes : WF es) (k : K) :
    index (FromEntries es) k = index es k := by
  cases hi : index es k with
  | none =>
    have hk := (index_eq_none_iff es k).1 hi
    apply FromEntries_index_absent
    intro e he hek
    exact hk (by rw [← hek]; exact List.mem_map_of_mem _ he)
  | some v =>
    have hmem := (index_eq_some_iff es hes k v).1 hi
    obtain ⟨pre, post, rfl⟩ := List.append_of_mem hmem
    apply FromEntries_index_last
    intro e he hek
    have hnd : (keysOf pre ++ k :: keysOf post).Nodup := by
      simpa [WF, keysOf] using hes
    have h1 := (List.nodup_cons.1 (List.nodup_append.1 hnd).2.1).1
    exact h1 (by rw [← hek]; exact List.mem_map_of_mem _ he)

theorem Entries_eq (m : GoMap K V) : Entries m = m := by
  have h : ∀ (es acc : List (Entry K V)),
      es.foldl (fun dst e => dst ++ [Entry.mk e.Key e.Value]) acc = acc ++ es := by
    intro es
    induction es with
    | nil => intro acc; simp
    | cons e t ih => intro acc; simp [ih]
  simpa [Entries] using h m []

theorem Clean_eq [DecidableEq K] [DecidableEq V] [Inhabited V] (m : GoMap K V) (hm : WF m) :
    Clean m = m.filter (fun e => decide (e.Value ≠ default)) :=
  selectLoop_make (fun e => e.Value ≠ default) m hm

theorem fillLoop_index [DecidableEq K] (h : K → V) (ks : List K) (cur : GoMap K V) (k : K) :
    index (ks.foldl (fun cur k => store cur k (h k)) cur) k
      = if k ∈ ks then some (h k) else index cur k := by
  induction ks generalizing cur with
  | nil => simp
  | cons a t ih =>
    simp only [List.foldl_cons, ih, index_store, List.mem_cons]
    by_cases h1 : k ∈ t
    · simp [h1]
    · by_cases h2 : a = k
      · subst h2
        simp [h1]
      · have h3 : ¬ k = a := fun hk => h2 hk.symm
        simp [h1, h2, h3]

theorem fillLoop_keysOf [DecidableEq K] (h : K → V) (ks : List K) (cur : GoMap K V)
    (hks : ∀ k ∈ ks, k ∈ keysOf cur) :
    keysOf (ks.foldl (fun cur k => store cur k (h k)) cur) = keysOf cur := by
  induction ks generalizing cur with
  | nil => rfl
  | cons a t ih =>
    have ha : a ∈ keysOf cur := hks a (List.mem_cons_self _ _)
    have hs : keysOf (store cur a (h a)) = keysOf cur := by
      rw [keysOf_store, if_pos ha]
    simp only [List.foldl_cons]
    rw [ih (store cur a (h a)) (fun k hk => by rw [hs]; exact hks k (List.mem_cons_of_mem _ hk)),
      hs]

theorem len_eq_of_keysOf_eq {V1 : Type} (a : GoMap K V) (b : GoMap K V1)
    (h : keysOf a = keysOf b) : len a = len b := by
  have := congrArg List.length h
  simpa [keysOf, len] using this

theorem Get_of_index_some [DecidableEq K] [Inhabited V] (m : GoMap K V) (k : K) (v : V)
    (h : index m k = some v) : Get m k = (v, true) := by
  simp [Get, h]

theorem Get_of_index_none [DecidableEq K] [Inhabited V] (m : GoMap K V) (k : K)
    (h : index m k = none) : Get m k = (default, false) := by
  simp [Get, h]

theorem FillBy_props [DecidableEq K] [Inhabited V] (c : GoMap K V) (h : K → V) :
    (∀ k ∈ keysOf c, Get (FillBy c h) k = (h k, true)) ∧
    keysOf (FillBy c h) = keysOf c ∧ len (FillBy c h) = len c ∧
    (∀ k, k ∉ keysOf c → Get (FillBy c h) k = (default, false)) := by
  have hk : keysOf (FillBy c h) = keysOf c := fillLoop_keysOf h (keysOf c) c (fun _ hk => hk)
  refine ⟨?_, hk, len_eq_of_keysOf_eq _ _ hk, ?_⟩
  · intro k hkc
    apply Get_of_index_some
    unfold FillBy
    rw [fillLoop_index, if_pos hkc]
  · intro k hkc
    apply Get_of_index_none
    unfold FillBy
    rw [fillLoop_index, if_neg hkc]
    exact (index_eq_none_iff c k).2 hkc

end ModelLemmas

/-! ## Partition and PartitionBy -/

section PartitionTheorems

variable {K V : Type}

/-- C1: for every map `m`, `PartitionBy m f` (and `Partition m v`, with the predicate
"value equals `v`") returns two maps whose key sets are disjoint and together are
exactly the key set of `m`; a key maps to `x` in the first result iff it maps to `x`
in `m` and the predicate holds of the entry, and in the second result iff it maps to
`x` in `m` and the predicate fails. -/
theorem Partition_spec [DecidableEq K] [DecidableEq V] (m : GoMap K V) (hm : WF m)
    (f : K → V → Bool) (v : V) :
    ((∀ k, ¬ (k ∈ keysOf (PartitionBy m f).1 ∧ k ∈ keysOf (PartitionBy m f).2)) ∧
     (∀ k, (k ∈ keysOf (PartitionBy m f).1 ∨ k ∈ keysOf (PartitionBy m f).2) ↔ k ∈ keysOf m) ∧
     (∀ k x, index (PartitionBy m f).1 k = some x ↔ (index m k = some x ∧ f k x = true)) ∧
     (∀ k x, index (PartitionBy m f).2 k = some x ↔ (index m k = some x ∧ f k x = false))) ∧
    ((∀ k, ¬ (k ∈ keysOf (Partition m v).1 ∧ k ∈ keysOf (Partition m v).2)) ∧
     (∀ k, (k ∈ keysOf (Partition m v).1 ∨ k ∈ keysOf (Partition m v).2) ↔ k ∈ keysOf m) ∧
     (∀ k x, index (Partition m v).1 k = some x ↔ (index m k = some x ∧ x = v)) ∧
     (∀ k x, index (Partition m v).2 k = some x ↔ (index m k = some x ∧ x ≠ v))) := by
  constructor
  · rw [PartitionBy_eq m hm f]
    exact filter_split m hm (fun e => f e.Key e.Value)
  · rw [Partition_eq m hm v]
    have h := filter_split m hm (fun e => decide (e.Value = v))
    refine ⟨h.1, h.2.1, ?_, ?_⟩
    · intro k x
      simpa using h.2.2.1 k x
    · intro k x
      simpa using h.2.2.2 k x

/-- Witness for C1 on the map `{a:1, b:0, c:3}` with the predicate `v > 0`. -/
theorem Partition_spec_witness :
    WF ([⟨"a", 1⟩, ⟨"b", 0⟩, ⟨"c", 3⟩] : GoMap String Int) ∧
    ¬ ("a" ∈ keysOf (PartitionBy ([⟨"a", 1⟩, ⟨"b", 0⟩, ⟨"c", 3⟩] : GoMap String Int)
          (fun _ x => decide (x > 0))).1 ∧
       "a" ∈ keysOf (PartitionBy ([⟨"a", 1⟩, ⟨"b", 0⟩, ⟨"c", 3⟩] : GoMap String Int)
          (fun _ x => decide (x > 0))).2) :=
  ⟨by decide,
   (Partition_spec ([⟨"a", 1⟩, ⟨"b", 0⟩, ⟨"c", 3⟩] : GoMap String Int) (by decide)
      (fun _ x => decide (x > 0)) 0).1.1 "a"⟩

end PartitionTheorems

/-! ## FromEntries, Entries, Clean and the fill family -/

section BuildTheorems

variable {K V : Type}

/-- C2: a key that no entry of `es` carries is absent from `FromEntries es`; a key `k`
whose last occurrence in `es` carries the value `v` (no entry after it has key `k`)
is mapped to `v`: the last write wins.  On `[(x,1),(y,2),(x,5)]` the result is
`{x:5, y:2}`. -/
theorem FromEntries_last_wins [DecidableEq K] (es : List (Entry K V)) (k : K) :
    ((∀ e ∈ es, e.Key ≠ k) → index (FromEntries es) k = none) ∧
    (∀ pre post v, es = pre ++ ⟨k, v⟩ :: post → (∀ e ∈ post, e.Key ≠ k) →
      index (FromEntries es) k = some v) ∧
    WF (FromEntries es) ∧
    FromEntries ([⟨"x", 1⟩, ⟨"y", 2⟩, ⟨"x", 5⟩] : List (Entry String Int))
      = [⟨"x", 5⟩, ⟨"y", 2⟩] := by
  refine ⟨FromEntries_index_absent es k, ?_, ?_, by decide⟩
  · rintro pre post v rfl h
    exact FromEntries_index_last pre post k v h
  · exact WF_foldl_store es make (by simp [WF, keysOf, make])

/-- Witness for C2: in `[(x,1),(y,2),(x,5)]` the last entry with key `x` carries 5. -/
theorem FromEntries_last_wins_witness :
    index (FromEntries ([⟨"x", 1⟩, ⟨"y", 2⟩, ⟨"x", 5⟩] : List (Entry String Int))) "x"
      = some 5 :=
  (FromEntries_last_wins ([⟨"x", 1⟩, ⟨"y", 2⟩, ⟨"x", 5⟩] : List (Entry String Int)) "x").2.1
    [⟨"x", 1⟩, ⟨"y", 2⟩] [] 5 rfl (by simp)

/-- C3: for every map `c` and every enumeration order `es` of it, `Entries` returns
`len c` entries, no key twice, which are exactly the entries of `c`; and
`FromEntries (Entries es)` maps every key as `c` does. -/
theorem Entries_roundtrip [DecidableEq K] (c es : GoMap K V) (hc : WF c) (hp : es.Perm c) :
    (Entries es).length = len c ∧
    (keysOf (Entries es)).Nodup ∧
    (Entries es).Perm c ∧
    (∀ k, index (FromEntries (Entries es)) k = index c k) := by
  have hes : WF es := WF_perm c es hc hp
  rw [Entries_eq]
  refine ⟨hp.length_eq, hes, hp, ?_⟩
  intro k
  rw [FromEntries_index_of_WF es hes k, index_perm c es hc hp k]

/-- Witness for C3: the map `{a:1, b:0, c:3}` enumerated as `c, a, b`. -/
theorem Entries_roundtrip_witness :
    WF ([⟨"a", 1⟩, ⟨"b", 0⟩, ⟨"c", 3⟩] : GoMap String Int) ∧
    List.Perm ([⟨"c", 3⟩, ⟨"a", 1⟩, ⟨"b", 0⟩] : GoMap String Int)
      [⟨"a", 1⟩, ⟨"b", 0⟩, ⟨"c", 3⟩] ∧
    (Entries ([⟨"c", 3⟩, ⟨"a", 1⟩, ⟨"b", 0⟩] : GoMap String Int)).length
      = len ([⟨"a", 1⟩, ⟨"b", 0⟩, ⟨"c", 3⟩] : GoMap String Int) :=
  ⟨by decide, by decide,
   (Entries_roundtrip ([⟨"a", 1⟩, ⟨"b", 0⟩, ⟨"c", 3⟩] : GoMap String Int)
      [⟨"c", 3⟩, ⟨"a", 1⟩, ⟨"b", 0⟩] (by decide) (by decide)).1⟩

/-- C4: for every map `c`, a key maps to `x` in `Clean c` iff it maps to `x` in `c` and
`x` is not the zero value; hence `len (Clean c) ≤ len c`.  On `{a:1, b:0, c:3}` the
result is `{a:1, c:3}`. -/
theorem Clean_spec [DecidableEq K] [DecidableEq V] [Inhabited V] (c : GoMap K V) (hc : WF c) :
    (∀ k x, index (Clean c) k = some x ↔ (index c k = some x ∧ x ≠ default)) ∧
    len (Clean c) ≤ len c ∧
    Clean ([⟨"a", 1⟩, ⟨"b", 0⟩, ⟨"c", 3⟩] : GoMap String Int) = [⟨"a", 1⟩, ⟨"c", 3⟩] := by
  rw [Clean_eq c hc]
  refine ⟨?_, List.length_filter_le _ _, by decide⟩
  intro k x
  simpa using index_filter c hc (fun e => decide (e.Value ≠ default)) k x

/-- Witness for C4 on the map `{a:1, b:0, c:3}`. -/
theorem Clean_spec_witness :
    WF ([⟨"a", 1⟩, ⟨"b", 0⟩, ⟨"c", 3⟩] : GoMap String Int) ∧
    len (Clean ([⟨"a", 1⟩, ⟨"b", 0⟩, ⟨"c", 3⟩] : GoMap String Int))
      ≤ len ([⟨"a", 1⟩, ⟨"b", 0⟩, ⟨"c", 3⟩] : GoMap String Int) :=
  ⟨by decide, (Clean_spec ([⟨"a", 1⟩, ⟨"b", 0⟩, ⟨"c", 3⟩] : GoMap String Int) (by decide)).2.1⟩

/-- C5: after `Fill c v` every key of `c` maps to `v`, after `FillZero c` to the zero
value, after `FillBy c f` the key `k` maps to `f k`; in all three cases the keys (and so
the size) are those of `c`, and a key absent from `c` is still absent.  `FillZero` turns
`{a:1, b:2}` into `{a:0, b:0}`. -/
theorem Fill_spec [DecidableEq K] [Inhabited V] (c : GoMap K V) (v : V) (f : K → V) :
    ((∀ k ∈ keysOf c, Get (Fill c v) k = (v, true)) ∧
     keysOf (Fill c v) = keysOf c ∧ len (Fill c v) = len c ∧
     (∀ k, k ∉ keysOf c → Get (Fill c v) k = (default, false))) ∧
    ((∀ k ∈ keysOf c, Get (FillZero c) k = (default, true)) ∧
     keysOf (FillZero c) = keysOf c ∧ len (FillZero c) = len c ∧
     (∀ k, k ∉ keysOf c → Get (FillZero c) k = (default, false))) ∧
    ((∀ k ∈ keysOf c, Get (FillBy c f) k = (f k, true)) ∧
     keysOf (FillBy c f) = keysOf c ∧ len (FillBy c f) = len c ∧
     (∀ k, k ∉ keysOf c → Get (FillBy c f) k = (default, false))) ∧
    FillZero ([⟨"a", 1⟩, ⟨"b", 2⟩] : GoMap String Int) = [⟨"a", 0⟩, ⟨"b", 0⟩] :=
  ⟨FillBy_props c (fun _ => v), FillBy_props c (fun _ => default), FillBy_props c f, by decide⟩

/-- Witness for C5: after `Fill {a:1, b:2} 7` the key `a` maps to 7. -/
theorem Fill_spec_witness :
    Get (Fill ([⟨"a", 1⟩, ⟨"b", 2⟩] : GoMap String Int) 7) "a" = (7, true) :=
  (Fill_spec ([⟨"a", 1⟩, ⟨"b", 2⟩] : GoMap String Int) 7 (fun _ => 0)).1.1 "a" (by decide)

end BuildTheorems

/-! ## Reduce and Fold -/

section ReduceLemmas

variable {K V V1 V2 : Type}

theorem Reduce_loop_tail (f : V → K → V → V) (t : List (Entry K V)) (a : V) :
    t.foldl
      (fun (st : V × Bool) e =>
        if st.2 then (e.Value, false) else (f st.1 e.Key e.Value, st.2))
      (a, false)
      = (t.foldl (fun v e => f v e.Key e.Value) a, false) := by
  induction t generalizing a with
  | nil => rfl
  | cons e t ih => simp [List.foldl_cons, ih]

theorem Reduce_cons [Inhabited V] (e : Entry K V) (t : GoMap K V) (f : V → K → V → V) :
    Reduce (e :: t) f = Fold t e.Value f := by
  unfold Reduce Fold
  simp only [List.foldl_cons, if_true]
  rw [Reduce_loop_tail]

theorem Fold_perm (f : V2 → K → V1 → V2)
    (hf : ∀ a k1 v1 k2 v2, f (f a k1 v1) k2 v2 = f (f a k2 v2) k1 v1)
    (es1 es2 : GoMap K V1) (hp : es1.Perm es2) (seed : V2) :
    Fold es1 seed f = Fold es2 seed f := by
  unfold Fold
  exact List.Perm.foldl_eq' hp (fun x _ y _ z => hf z x.Key x.Value y.Key y.Value) seed

theorem Reduce_perm_aux [Inhabited V] (g : V → V → V)
    (hassoc : ∀ a b c, g (g a b) c = g a (g b c)) (hcomm : ∀ a b, g a b = g b a)
    (es1 es2 : GoMap K V) (hp : es1.Perm es2) :
    Reduce es1 (fun acc _ v => g acc v) = Reduce es2 (fun acc _ v => g acc v) := by
  have hrc : ∀ (a : V) (k1 : K) (v1 : V) (k2 : K) (v2 : V),
      (fun acc (_ : K) v => g acc v) ((fun acc (_ : K) v => g acc v) a k1 v1) k2 v2
        = (fun acc (_ : K) v => g acc v) ((fun acc (_ : K) v => g acc v) a k2 v2) k1 v1 := by
    intro a _ v1 _ v2
    show g (g a v1) v2 = g (g a v2) v1
    rw [hassoc, hcomm v1 v2, ← hassoc]
  induction hp with
  | nil => rfl
  | cons x h _ =>
    rw [Reduce_cons, Reduce_cons]
    exact Fold_perm _ hrc _ _ h _
  | swap x y l =>
    rw [Reduce_cons, Reduce_cons]
    unfold Fold
    simp only [List.foldl_cons]
    rw [hcomm y.Value x.Value]
  | trans _ _ ih1 ih2 => exact ih1.trans ih2

theorem foldl_max_props [LinearOrder V] (t : List (Entry K V)) (a : V) :
    a ≤ t.foldl (fun acc e => if acc < e.Value then e.Value else acc) a ∧
    (∀ e ∈ t, e.Value ≤ t.foldl (fun acc e => if acc < e.Value then e.Value else acc) a) ∧
    (t.foldl (fun acc e => if acc < e.Value then e.Value else acc) a = a ∨
      ∃ e ∈ t, e.Value = t.foldl (fun acc e => if acc < e.Value then e.Value else acc) a) := by
  induction t generalizing a with
  | nil => simp
  | cons x t ih =>
    simp only [List.foldl_cons, List.mem_cons, forall_eq_or_imp, exists_eq_or_imp]
    obtain ⟨h1, h2, h3⟩ := ih (if a < x.Value then x.Value else a)
    by_cases hlt : a < x.Value
    · simp only [if_pos hlt] at h1 h2 h3 ⊢
      refine ⟨le_trans (le_of_lt hlt) h1, ⟨h1, h2⟩, ?_⟩
      rcases h3 with h3 | h3
      · exact Or.inr (Or.inl h3.symm)
      · exact Or.inr (Or.inr h3)
    · simp only [if_neg hlt] at h1 h2 h3 ⊢
      refine ⟨h1, ⟨le_trans (not_lt.1 hlt) h1, h2⟩, ?_⟩
      rcases h3 with h3 | h3
      · exact Or.inl h3
      · exact Or.inr (Or.inr h3)

theorem foldl_min_props [LinearOrder V] (t : List (Entry K V)) (a : V) :
    t.foldl (fun acc e => if acc > e.Value then e.Value else acc) a ≤ a ∧
    (∀ e ∈ t, t.foldl (fun acc e => if acc > e.Value then e.Value else acc) a ≤ e.Value) ∧
    (t.foldl (fun acc e => if acc > e.Value then e.Value else acc) a = a ∨
      ∃ e ∈ t, e.Value = t.foldl (fun acc e => if acc > e.Value then e.Value else acc) a) := by
  induction t generalizing a with
  | nil => simp
  | cons x t ih =>
    simp only [List.foldl_cons, List.mem_cons, forall_eq_or_imp, exists_eq_or_imp]
    obtain ⟨h1, h2, h3⟩ := ih (if a > x.Value then x.Value else a)
    by_cases hlt : a > x.Value
    · simp only [if_pos hlt] at h1 h2 h3 ⊢
      refine ⟨le_trans h1 (le_of_lt hlt), ⟨h1, h2⟩, ?_⟩
      rcases h3 with h3 | h3
      · exact Or.inr (Or.inl h3.symm)
      · exact Or.inr (Or.inr h3)
    · simp only [if_neg hlt] at h1 h2 h3 ⊢
      refine ⟨h1, ⟨le_trans h1 (not_lt.1 hlt), h2⟩, ?_⟩
      rcases h3 with h3 | h3
      · exact Or.inl h3
      · exact Or.inr (Or.inr h3)

theorem Max_cons_props [LinearOrder V] [Inhabited V] (e : Entry K V) (t : GoMap K V) :
    (∃ x ∈ e :: t, x.Value = Max (e :: t)) ∧ (∀ x ∈ e :: t, x.Value ≤ Max (e :: t)) := by
  unfold Max
  rw [Reduce_cons]
  unfold Fold
  obtain ⟨h1, h2, h3⟩ := foldl_max_props t e.Value
  constructor
  · rcases h3 with h3 | ⟨x, hx, hxv⟩
    · exact ⟨e, List.mem_cons_self _ _, h3.symm⟩
    · exact ⟨x, List.mem_cons_of_mem _ hx, hxv⟩
  · intro x hx
    rcases List.mem_cons.1 hx with hx | hx
    · rw [hx]
      exact h1
    · exact h2 x hx

theorem Min_cons_props [LinearOrder V] [Inhabited V] (e : Entry K V) (t : GoMap K V) :
    (∃ x ∈ e :: t, x.Value = Min (e :: t)) ∧ (∀ x ∈ e :: t, Min (e :: t) ≤ x.Value) := by
  unfold Min
  rw [Reduce_cons]
  unfold Fold
  obtain ⟨h1, h2, h3⟩ := foldl_min_props t e.Value
  constructor
  · rcases h3 with h3 | ⟨x, hx, hxv⟩
    · exact ⟨e, List.mem_cons_self _ _, h3.symm⟩
    · exact ⟨x, List.mem_cons_of_mem _ hx, hxv⟩
  · intro x hx
    rcases List.mem_cons.1 hx with hx | hx
    · rw [hx]
      exact h1
    · exact h2 x hx

theorem wrapInt_of_IsInt (x : Int) (h : IsInt x) : wrapInt x = x := by
  unfold IsInt minInt maxInt at h
  unfold wrapInt
  omega

theorem IsInt_wrapInt (x : Int) : IsInt (wrapInt x) := by
  unfold IsInt minInt maxInt wrapInt
  omega

theorem wrapInt_add_left (x y : Int) : wrapInt (wrapInt x + y) = wrapInt (x + y) := by
  unfold wrapInt
  omega

theorem foldl_addInt (l : List Int) (a : Int) (ha : IsInt a) :
    l.foldl addInt a = wrapInt (a + l.sum) := by
  induction l generalizing a with
  | nil => simp [wrapInt_of_IsInt a ha]
  | cons b t ih =>
    simp only [List.foldl_cons, List.sum_cons]
    rw [ih (addInt a b) (IsInt_wrapInt _)]
    unfold addInt
    rw [wrapInt_add_left, add_assoc]

theorem Sum_eq_wrapInt_sum (es : GoMap K Int) (hv : ∀ e ∈ es, IsInt e.Value) :
    Sum es = wrapInt (valuesOf es).sum := by
  cases es with
  | nil =>
    have h0 : Sum ([] : GoMap K Int) = 0 := rfl
    rw [h0]
    simp only [valuesOf, List.map_nil, List.sum_nil]
    unfold wrapInt
    omega
  | cons e t =>
    unfold Sum
    rw [Reduce_cons]
    unfold Fold
    have h : t.foldl (fun v x => addInt v x.Value) e.Value
        = (valuesOf t).foldl addInt e.Value := by
      unfold valuesOf
      rw [List.foldl_map]
    rw [h, foldl_addInt _ _ (hv e (List.mem_cons_self _ _))]
    simp [valuesOf]

end ReduceLemmas

section ReduceTheorems

variable {K V V1 V2 : Type}

/-- C6 (as stated, refuted): on the map `{a: maxInt, b: 1}`, whose values are both Go
ints, `Sum` returns `minInt` while the arithmetic sum of the values is `maxInt + 1`. -/
theorem Sum_overflow :
    IsInt maxInt ∧ IsInt 1 ∧
    WF ([⟨"a", maxInt⟩, ⟨"b", 1⟩] : GoMap String Int) ∧
    Sum ([⟨"a", maxInt⟩, ⟨"b", 1⟩] : GoMap String Int) = minInt ∧
    (valuesOf ([⟨"a", maxInt⟩, ⟨"b", 1⟩] : GoMap String Int)).sum = 9223372036854775808 ∧
    Sum ([⟨"a", maxInt⟩, ⟨"b", 1⟩] : GoMap String Int)
      ≠ (valuesOf ([⟨"a", maxInt⟩, ⟨"b", 1⟩] : GoMap String Int)).sum := by
  refine ⟨by decide, by decide, by decide, by decide, by decide, by decide⟩

/-- C6 (amended): for every map `c` of Go ints and every enumeration order `es` of it,
`Sum` is `Reduce` with Go's addition, and equals the arithmetic sum of the values of `c`
wrapped around into the range of `int`; so it is the arithmetic sum whenever that sum is
itself an `int`.  `Sum` of the empty map is 0 and `Sum {a:1, b:0, c:3} = 4`. -/
theorem Sum_spec (c es : GoMap K Int) (hp : es.Perm c) (hv : ∀ e ∈ c, IsInt e.Value) :
    Sum es = Reduce es (fun acc _ v => addInt acc v) ∧
    Sum es = wrapInt (valuesOf c).sum ∧
    (IsInt (valuesOf c).sum → Sum es = (valuesOf c).sum) ∧
    Sum ([] : GoMap K Int) = 0 ∧
    Sum ([⟨"a", 1⟩, ⟨"b", 0⟩, ⟨"c", 3⟩] : GoMap String Int) = 4 := by
  have hs : (valuesOf es).sum = (valuesOf c).sum := (hp.map Entry.Value).sum_eq
  have h1 : Sum es = wrapInt (valuesOf c).sum := by
    rw [Sum_eq_wrapInt_sum es (fun e he => hv e (hp.mem_iff.1 he)), hs]
  refine ⟨rfl, h1, ?_, rfl, by decide⟩
  intro hi
  rw [h1, wrapInt_of_IsInt _ hi]

/-- Witness for C6 (amended): the map `{a:1, b:0, c:3}` enumerated as `c, a, b`. -/
theorem Sum_spec_witness :
    List.Perm ([⟨"c", 3⟩, ⟨"a", 1⟩, ⟨"b", 0⟩] : GoMap String Int)
      [⟨"a", 1⟩, ⟨"b", 0⟩, ⟨"c", 3⟩] ∧
    Sum ([⟨"c", 3⟩, ⟨"a", 1⟩, ⟨"b", 0⟩] : GoMap String Int)
      = wrapInt (valuesOf ([⟨"a", 1⟩, ⟨"b", 0⟩, ⟨"c", 3⟩] : GoMap String Int)).sum :=
  ⟨by decide,
   (Sum_spec ([⟨"a", 1⟩, ⟨"b", 0⟩, ⟨"c", 3⟩] : GoMap String Int)
      [⟨"c", 3⟩, ⟨"a", 1⟩, ⟨"b", 0⟩] (by decide) (by decide)).2.1⟩

/-- C7: when `f acc k v = g acc v` with `g` associative and commutative, `Reduce`
returns the same result for every two enumeration orders of a map `c`. -/
theorem Reduce_order_independent [Inhabited V] (g : V → V → V) (f : V → K → V → V)
    (hf : ∀ acc k v, f acc k v = g acc v)
    (hassoc : ∀ a b c, g (g a b) c = g a (g b c)) (hcomm : ∀ a b, g a b = g b a)
    (c es1 es2 : GoMap K V) (h1 : es1.Perm c) (h2 : es2.Perm c) :
    Reduce es1 f = Reduce es2 f := by
  have hfg : f = fun acc _ v => g acc v := by
    funext acc k v
    exact hf acc k v
  rw [hfg]
  exact Reduce_perm_aux g hassoc hcomm es1 es2 (h1.trans h2.symm)

/-- Witness for C7: integer addition over `{a:1, b:0, c:3}` in two orders. -/
theorem Reduce_order_independent_witness :
    Reduce ([⟨"c", 3⟩, ⟨"a", 1⟩, ⟨"b", 0⟩] : GoMap String Int) (fun acc _ v => acc + v)
      = Reduce ([⟨"b", 0⟩, ⟨"c", 3⟩, ⟨"a", 1⟩] : GoMap String Int) (fun acc _ v => acc + v) :=
  Reduce_order_independent (fun a b : Int => a + b) (fun acc _ v => acc + v)
    (fun _ _ _ => rfl) (fun a b c => Int.add_assoc a b c) (fun a b => Int.add_comm a b)
    [⟨"a", 1⟩, ⟨"b", 0⟩, ⟨"c", 3⟩] [⟨"c", 3⟩, ⟨"a", 1⟩, ⟨"b", 0⟩] [⟨"b", 0⟩, ⟨"c", 3⟩, ⟨"a", 1⟩]
    (by decide) (by decide)

/-- C8: `Reduce` of the empty map is the zero value whatever `f` is; `Reduce` of a map
enumerated as `e :: t` is `Fold` over `t` seeded with the value of `e`, that is
`f (... (f (f v0 k1 v1) k2 v2) ...) kn vn`; `Reduce` of a one-entry map is that entry's
value. -/
theorem Reduce_seeded_by_first [Inhabited V] :
    (∀ f : V → K → V → V, Reduce ([] : GoMap K V) f = default) ∧
    (∀ (e : Entry K V) (t : GoMap K V) (f : V → K → V → V),
      Reduce (e :: t) f = Fold t e.Value f) ∧
    (∀ (e : Entry K V) (t : GoMap K V) (f : V → K → V → V),
      Reduce (e :: t) f = t.foldl (fun acc x => f acc x.Key x.Value) e.Value) ∧
    (∀ (e0 e1 e2 : Entry K V) (f : V → K → V → V),
      Reduce [e0, e1, e2] f = f (f e0.Value e1.Key e1.Value) e2.Key e2.Value) ∧
    (∀ (e : Entry K V) (f : V → K → V → V), Reduce [e] f = e.Value) :=
  ⟨fun _ => rfl, fun e t f => Reduce_cons e t f, fun e t f => Reduce_cons e t f,
   fun _ _ _ _ => rfl, fun _ _ => rfl⟩

/-- C9: `Fold` of the empty map returns the seed; and when `f` is order-independent in
the accumulator, `Fold` returns the same result for every two enumeration orders of a
map `c`. -/
theorem Fold_spec (f : V2 → K → V1 → V2) (seed : V2)
    (hf : ∀ a k1 v1 k2 v2, f (f a k1 v1) k2 v2 = f (f a k2 v2) k1 v1)
    (c es1 es2 : GoMap K V1) (h1 : es1.Perm c) (h2 : es2.Perm c) :
    Fold ([] : GoMap K V1) seed f = seed ∧ Fold es1 seed f = Fold es2 seed f :=
  ⟨rfl, Fold_perm f hf es1 es2 (h1.trans h2.symm) seed⟩

/-- Witness for C9: summing the values onto the seed 10 over `{a:1, b:0, c:3}`. -/
theorem Fold_spec_witness :
    Fold ([] : GoMap String Int) (10 : Int) (fun acc _ v => acc + v) = 10 ∧
    Fold ([⟨"c", 3⟩, ⟨"a", 1⟩, ⟨"b", 0⟩] : GoMap String Int) (10 : Int) (fun acc _ v => acc + v)
      = Fold ([⟨"b", 0⟩, ⟨"c", 3⟩, ⟨"a", 1⟩] : GoMap String Int) (10 : Int)
          (fun acc _ v => acc + v) :=
  Fold_spec (fun (acc : Int) (_ : String) (v : Int) => acc + v) 10
    (fun a _ v1 _ v2 => Int.add_right_comm a v1 v2)
    [⟨"a", 1⟩, ⟨"b", 0⟩, ⟨"c", 3⟩] [⟨"c", 3⟩, ⟨"a", 1⟩, ⟨"b", 0⟩] [⟨"b", 0⟩, ⟨"c", 3⟩, ⟨"a", 1⟩]
    (by decide) (by decide)

/-- C10: for every non-empty map `c` with totally ordered values and every enumeration
order `es` of it, `Max` is the value of some entry of `c` and is at least every value of
`c`, and `Min` is the value of some entry and at most every value; on the empty map
both return the zero value.  `Max {a:1, b:0, c:3} = 3`. -/
theorem Max_Min_spec [LinearOrder V] [Inhabited V] (c es : GoMap K V) (hp : es.Perm c)
    (hne : c ≠ []) :
    ((∃ e ∈ c, e.Value = Max es) ∧ (∀ e ∈ c, e.Value ≤ Max es)) ∧
    ((∃ e ∈ c, e.Value = Min es) ∧ (∀ e ∈ c, Min es ≤ e.Value)) ∧
    Max ([] : GoMap K V) = default ∧ Min ([] : GoMap K V) = default ∧
    Max ([⟨"a", 1⟩, ⟨"b", 0⟩, ⟨"c", 3⟩] : GoMap String Int) = 3 := by
  cases es with
  | nil => exact absurd hp.symm.eq_nil hne
  | cons e t =>
    obtain ⟨⟨x, hx, hxv⟩, hmax⟩ := Max_cons_props e t
    obtain ⟨⟨y, hy, hyv⟩, hmin⟩ := Min_cons_props e t
    refine ⟨⟨⟨x, hp.mem_iff.1 hx, hxv⟩, fun z hz => hmax z (hp.mem_iff.2 hz)⟩,
      ⟨⟨y, hp.mem_iff.1 hy, hyv⟩, fun z hz => hmin z (hp.mem_iff.2 hz)⟩, rfl, rfl, by decide⟩

/-- Witness for C10: the map `{a:1, b:0, c:3}` enumerated as `b, c, a`. -/
theorem Max_Min_spec_witness :
    List.Perm ([⟨"b", 0⟩, ⟨"c", 3⟩, ⟨"a", 1⟩] : GoMap String Int)
      [⟨"a", 1⟩, ⟨"b", 0⟩, ⟨"c", 3⟩] ∧
    ([⟨"a", 1⟩, ⟨"b", 0⟩, ⟨"c", 3⟩] : GoMap String Int) ≠ [] ∧
    (1 : Int) ≤ Max ([⟨"b", 0⟩, ⟨"c", 3⟩, ⟨"a", 1⟩] : GoMap String Int) :=
  ⟨by decide, by decide,
   (Max_Min_spec ([⟨"a", 1⟩, ⟨"b", 0⟩, ⟨"c", 3⟩] : GoMap String Int)
      [⟨"b", 0⟩, ⟨"c", 3⟩, ⟨"a", 1⟩] (by decide) (by decide)).1.2 ⟨"a", 1⟩ (by decide)⟩

end ReduceTheorems

/-! ## Map, Collect, the filter family and the By reductions -/

section SelectLemmas

variable {K V V1 V2 : Type}

theorem index_map_values [DecidableEq K] (m : GoMap K V1) (g : K → V1 → V2) (k : K) :
    index (m.map (fun e => (⟨e.Key, g e.Key e.Value⟩ : Entry K V2))) k
      = (index m k).map (g k) := by
  induction m with
  | nil => rfl
  | cons e t ih =>
    by_cases h : e.Key = k
    · subst h
      simp [index]
    · simp [index, h, ih]

theorem keysOf_map_values (m : GoMap K V1) (g : K → V1 → V2) :
    keysOf (m.map (fun e => (⟨e.Key, g e.Key e.Value⟩ : Entry K V2))) = keysOf m := by
  simp [keysOf, List.map_map, Function.comp_def]

theorem index_filter_eq [DecidableEq K] (m : GoMap K V) (hm : WF m) (q : Entry K V → Bool)
    (k : K) :
    index (m.filter q) k
      = (index m k).bind (fun x => if q ⟨k, x⟩ = true then some x else none) := by
  apply Option.ext
  intro x
  simp only [Option.mem_def]
  rw [index_filter m hm q k x]
  cases hi : index m k with
  | none => simp
  | some y =>
    by_cases hq : q ⟨k, y⟩ = true
    · simp only [Option.some.injEq, Option.some_bind, if_pos hq]
      constructor
      · rintro ⟨h1, _⟩
        exact h1
      · intro h1
        subst h1
        exact ⟨rfl, hq⟩
    · simp only [Option.some.injEq, Option.some_bind, if_neg hq]
      constructor
      · rintro ⟨h1, h2⟩
        subst h1
        exact absurd h2 hq
      · intro h1
        exact Option.noConfusion h1

theorem Map_eq [DecidableEq K] (m : GoMap K V1) (hm : WF m) (f : K → V1 → V2) :
    Map m f = m.map (fun e => (⟨e.Key, f e.Key e.Value⟩ : Entry K V2)) := by
  have h : Map m f = selectLoop (fun _ => True) (fun e => f e.Key e.Value) make m := by
    simp [Map, selectLoop]
  rw [h, selectLoop_eq _ _ m make hm (by simp [make, keysOf])]
  simp [make]

theorem Collect_eq [DecidableEq K] (m : GoMap K V1) (hm : WF m) (f : K → V1 → V2 × Bool) :
    Collect m f
      = ((m.filter (fun e => (f e.Key e.Value).2)).map
          (fun e => (⟨e.Key, (f e.Key e.Value).1⟩ : Entry K V2))) := by
  have h : Collect m f
      = selectLoop (fun e => (f e.Key e.Value).2 = true) (fun e => (f e.Key e.Value).1) make m :=
    rfl
  rw [h, selectLoop_eq _ _ m make hm (by simp [make, keysOf])]
  simp [make]

theorem FilterBy_eq [DecidableEq K] (m : GoMap K V) (hm : WF m) (f : K → V → Bool) :
    FilterBy m f = m.filter (fun e => f e.Key e.Value) := by
  have h := selectLoop_make (fun e => f e.Key e.Value = true) m hm
  simpa [FilterBy, selectLoop] using h

theorem FilterNotBy_eq [DecidableEq K] (m : GoMap K V) (hm : WF m) (f : K → V → Bool) :
    FilterNotBy m f = m.filter (fun e => !f e.Key e.Value) := by
  have h := selectLoop_make (fun e => (!f e.Key e.Value) = true) m hm
  simpa [FilterNotBy, selectLoop] using h

theorem Filter_eq [DecidableEq K] [DecidableEq V] (m : GoMap K V) (hm : WF m) (v : V) :
    Filter m v = m.filter (fun e => decide (e.Value = v)) :=
  selectLoop_make (fun e => e.Value = v) m hm

theorem FilterNot_eq [DecidableEq K] [DecidableEq V] (m : GoMap K V) (hm : WF m) (v : V) :
    FilterNot m v = m.filter (fun e => !decide (e.Value = v)) := by
  have h := selectLoop_make (fun e => e.Value ≠ v) m hm
  simpa [FilterNot, selectLoop] using h

theorem len_filter_add (m : GoMap K V) (q : Entry K V → Bool) :
    len (m.filter q) + len (m.filter (fun e => !q e)) = len m := by
  unfold len
  exact (List.length_eq_length_filter_add q).symm

theorem By_loop_tail (step : V2 → V2 → V2) (f : K → V1 → V2) (t : List (Entry K V1)) (a : V2) :
    t.foldl
      (fun (st : V2 × Bool) e =>
        if st.2 then (f e.Key e.Value, false)
        else (step st.1 (f e.Key e.Value), st.2))
      (a, false)
      = (t.foldl (fun acc e => step acc (f e.Key e.Value)) a, false) := by
  induction t generalizing a with
  | nil => rfl
  | cons e t ih => simp [List.foldl_cons, ih]

theorem MaxBy_eq_Max_map [LinearOrder V2] [Inhabited V2] (m : GoMap K V1) (f : K → V1 → V2) :
    MaxBy m f = Max (m.map (fun e => (⟨e.Key, f e.Key e.Value⟩ : Entry K V2))) := by
  cases m with
  | nil => rfl
  | cons e t =>
    have h := By_loop_tail (fun a b => if a < b then b else a) f t (f e.Key e.Value)
    have hl : MaxBy (e :: t) f
        = t.foldl (fun acc x => if acc < f x.Key x.Value then f x.Key x.Value else acc)
            (f e.Key e.Value) := by
      unfold MaxBy Fold
      simp only [List.foldl_cons, if_true]
      have h2 : (fun (st : V2 × Bool) (x : Entry K V1) =>
            if st.2 = true then (f x.Key x.Value, false)
            else if st.1 < f x.Key x.Value then (f x.Key x.Value, st.2) else (st.1, st.2))
          = (fun (st : V2 × Bool) (x : Entry K V1) =>
            if st.2 = true then (f x.Key x.Value, false)
            else ((fun a b => if a < b then b else a) st.1 (f x.Key x.Value), st.2)) := by
        funext st x
        by_cases h3 : st.2 = true
        · simp [h3]
        · by_cases h4 : st.1 < f x.Key x.Value <;> simp [h3, h4]
      rw [h2, h]
    rw [hl, List.map_cons]
    unfold Max
    rw [Reduce_cons]
    unfold Fold
    rw [List.foldl_map]

theorem MinBy_eq_Min_map [LinearOrder V2] [Inhabited V2] (m : GoMap K V1) (f : K → V1 → V2) :
    MinBy m f = Min (m.map (fun e => (⟨e.Key, f e.Key e.Value⟩ : Entry K V2))) := by
  cases m with
  | nil => rfl
  | cons e t =>
    have h := By_loop_tail (fun a b => if a > b then b else a) f t (f e.Key e.Value)
    have hl : MinBy (e :: t) f
        = t.foldl (fun acc x => if acc > f x.Key x.Value then f x.Key x.Value else acc)
            (f e.Key e.Value) := by
      unfold MinBy Fold
      simp only [List.foldl_cons, if_true]
      have h2 : (fun (st : V2 × Bool) (x : Entry K V1) =>
            if st.2 = true then (f x.Key x.Value, false)
            else if st.1 > f x.Key x.Value then (f x.Key x.Value, st.2) else (st.1, st.2))
          = (fun (st : V2 × Bool) (x : Entry K V1) =>
            if st.2 = true then (f x.Key x.Value, false)
            else ((fun a b => if a > b then b else a) st.1 (f x.Key x.Value), st.2)) := by
        funext st x
        by_cases h3 : st.2 = true
        · simp [h3]
        · by_cases h4 : st.1 > f x.Key x.Value <;> simp [h3, h4]
      rw [h2, h]
    rw [hl, List.map_cons]
    unfold Min
    rw [Reduce_cons]
    unfold Fold
    rw [List.foldl_map]

end SelectLemmas

section SelectTheorems

variable {K V V1 V2 : Type}

/-- C11: for every non-empty map `c`, every projection `f` into a totally ordered type
and every enumeration order `es` of `c`, `MaxBy` is the projection of some entry of `c`
and is at least the projection of every entry, and `MinBy` is the projection of some
entry and at most every projection; the zero seed takes no part, so on `{a:1, b:0, c:3}`
with `f(k, v) = v - 10` (all projections negative) `MaxBy` is `-7`.  On the empty map
both return the zero value. -/
theorem MaxBy_MinBy_spec [LinearOrder V2] [Inhabited V2] (c es : GoMap K V1)
    (f : K → V1 → V2) (hp : es.Perm c) (hne : c ≠ []) :
    ((∃ e ∈ c, f e.Key e.Value = MaxBy es f) ∧ (∀ e ∈ c, f e.Key e.Value ≤ MaxBy es f)) ∧
    ((∃ e ∈ c, f e.Key e.Value = MinBy es f) ∧ (∀ e ∈ c, MinBy es f ≤ f e.Key e.Value)) ∧
    MaxBy ([] : GoMap K V1) f = default ∧ MinBy ([] : GoMap K V1) f = default ∧
    MaxBy ([⟨"a", 1⟩, ⟨"b", 0⟩, ⟨"c", 3⟩] : GoMap String Int) (fun _ v => v - 10) = -7 ∧
    MinBy ([⟨"a", 1⟩, ⟨"b", 0⟩, ⟨"c", 3⟩] : GoMap String Int) (fun _ v => v + 10) = 10 := by
  cases es with
  | nil => exact absurd hp.symm.eq_nil hne
  | cons e t =>
    rw [MaxBy_eq_Max_map, MinBy_eq_Min_map]
    obtain ⟨⟨x, hx, hxv⟩, hmax⟩ :=
      Max_cons_props (⟨e.Key, f e.Key e.Value⟩ : Entry K V2)
        (t.map (fun e => (⟨e.Key, f e.Key e.Value⟩ : Entry K V2)))
    obtain ⟨⟨y, hy, hyv⟩, hmin⟩ :=
      Min_cons_props (⟨e.Key, f e.Key e.Value⟩ : Entry K V2)
        (t.map (fun e => (⟨e.Key, f e.Key e.Value⟩ : Entry K V2)))
    have hx1 : x ∈ (e :: t).map (fun e => (⟨e.Key, f e.Key e.Value⟩ : Entry K V2)) := hx
    have hy1 : y ∈ (e :: t).map (fun e => (⟨e.Key, f e.Key e.Value⟩ : Entry K V2)) := hy
    obtain ⟨x0, hx0, rfl⟩ := List.mem_map.1 hx1
    obtain ⟨y0, hy0, rfl⟩ := List.mem_map.1 hy1
    refine ⟨⟨⟨x0, hp.mem_iff.1 hx0, hxv⟩, ?_⟩, ⟨⟨y0, hp.mem_iff.1 hy0, hyv⟩, ?_⟩,
      rfl, rfl, by decide, by decide⟩
    · intro z hz
      have hz1 : (⟨z.Key, f z.Key z.Value⟩ : Entry K V2)
          ∈ (e :: t).map (fun e => (⟨e.Key, f e.Key e.Value⟩ : Entry K V2)) :=
        List.mem_map_of_mem _ (hp.mem_iff.2 hz)
      exact hmax _ hz1
    · intro z hz
      have hz1 : (⟨z.Key, f z.Key z.Value⟩ : Entry K V2)
          ∈ (e :: t).map (fun e => (⟨e.Key, f e.Key e.Value⟩ : Entry K V2)) :=
        List.mem_map_of_mem _ (hp.mem_iff.2 hz)
      exact hmin _ hz1

/-- Witness for C11: `{a:1, b:0, c:3}` enumerated as `b, c, a`, projected by `v - 10`. -/
theorem MaxBy_MinBy_spec_witness :
    List.Perm ([⟨"b", 0⟩, ⟨"c", 3⟩, ⟨"a", 1⟩] : GoMap String Int)
      [⟨"a", 1⟩, ⟨"b", 0⟩, ⟨"c", 3⟩] ∧
    ([⟨"a", 1⟩, ⟨"b", 0⟩, ⟨"c", 3⟩] : GoMap String Int) ≠ [] ∧
    (1 : Int) - 10 ≤ MaxBy ([⟨"b", 0⟩, ⟨"c", 3⟩, ⟨"a", 1⟩] : GoMap String Int)
      (fun _ v => v - 10) :=
  ⟨by decide, by decide,
   (MaxBy_MinBy_spec ([⟨"a", 1⟩, ⟨"b", 0⟩, ⟨"c", 3⟩] : GoMap String Int)
      [⟨"b", 0⟩, ⟨"c", 3⟩, ⟨"a", 1⟩] (fun _ v => v - 10) (by decide) (by decide)).1.2
      ⟨"a", 1⟩ (by decide)⟩

/-- C12: for every map `c` and function `f`, `Map c f` has the keys of `c` (hence the
size of `c`) and maps each key `k` of `c` to `f k (c[k])`; a key absent from `c` is
absent from the result. -/
theorem Map_spec [DecidableEq K] (c : GoMap K V1) (hc : WF c) (f : K → V1 → V2) :
    keysOf (Map c f) = keysOf c ∧
    len (Map c f) = len c ∧
    WF (Map c f) ∧
    (∀ k, index (Map c f) k = (index c k).map (f k)) ∧
    (∀ k x, index c k = some x → index (Map c f) k = some (f k x)) := by
  have hk : keysOf (Map c f) = keysOf c := by
    rw [Map_eq c hc f]
    exact keysOf_map_values c f
  have hi : ∀ k, index (Map c f) k = (index c k).map (f k) := by
    intro k
    rw [Map_eq c hc f]
    exact index_map_values c f k
  refine ⟨hk, len_eq_of_keysOf_eq _ _ hk, ?_, hi, ?_⟩
  · unfold WF
    rw [hk]
    exact hc
  · intro k x hx
    rw [hi k, hx]
    rfl

/-- Witness for C12: doubling the values of `{a:1, b:0, c:3}`. -/
theorem Map_spec_witness :
    WF ([⟨"a", 1⟩, ⟨"b", 0⟩, ⟨"c", 3⟩] : GoMap String Int) ∧
    index (Map ([⟨"a", 1⟩, ⟨"b", 0⟩, ⟨"c", 3⟩] : GoMap String Int) (fun _ v => 2 * v)) "c"
      = some (2 * 3) :=
  ⟨by decide,
   (Map_spec ([⟨"a", 1⟩, ⟨"b", 0⟩, ⟨"c", 3⟩] : GoMap String Int) (by decide)
      (fun _ v => 2 * v)).2.2.2.2 "c" 3 (by decide)⟩

/-- C13: for every map `c` and function `f` returning a value and a keep flag, a key
`k` is in `Collect c f` iff `k` is in `c` and `f k (c[k])` returns keep = true, and then
`Collect c f` maps `k` to the value returned by `f k (c[k])`; so the result is no larger
than `c`. -/
theorem Collect_spec [DecidableEq K] (c : GoMap K V1) (hc : WF c) (f : K → V1 → V2 × Bool) :
    (∀ k, k ∈ keysOf (Collect c f) ↔ ∃ x, index c k = some x ∧ (f k x).2 = true) ∧
    (∀ k x, index c k = some x → (f k x).2 = true →
      index (Collect c f) k = some (f k x).1) ∧
    (∀ k y, index (Collect c f) k = some y ↔
      ∃ x, index c k = some x ∧ (f k x).2 = true ∧ (f k x).1 = y) ∧
    len (Collect c f) ≤ len c := by
  have hi : ∀ k, index (Collect c f) k
      = ((index c k).bind
          (fun x => if (f k x).2 = true then some x else none)).map (fun x => (f k x).1) := by
    intro k
    rw [Collect_eq c hc f,
      index_map_values (c.filter (fun e => (f e.Key e.Value).2)) (fun k x => (f k x).1) k,
      index_filter_eq c hc (fun e => (f e.Key e.Value).2) k]
  have h3 : ∀ k y, index (Collect c f) k = some y ↔
      ∃ x, index c k = some x ∧ (f k x).2 = true ∧ (f k x).1 = y := by
    intro k y
    rw [hi k]
    cases hx : index c k with
    | none => simp
    | some x =>
      by_cases hq : (f k x).2 = true
      · simp [hq]
      · simp [hq]
  refine ⟨?_, ?_, h3, ?_⟩
  · intro k
    rw [mem_keysOf_iff_index]
    constructor
    · rintro ⟨y, hy⟩
      obtain ⟨x, hx, hq, _⟩ := (h3 k y).1 hy
      exact ⟨x, hx, hq⟩
    · rintro ⟨x, hx, hq⟩
      exact ⟨(f k x).1, (h3 k _).2 ⟨x, hx, hq, rfl⟩⟩
  · intro k x hx hq
    exact (h3 k _).2 ⟨x, hx, hq, rfl⟩
  · rw [Collect_eq c hc f]
    simp only [len, List.length_map]
    exact List.length_filter_le _ _

/-- Witness for C13: keeping the doubled positive values of `{a:1, b:0, c:3}`. -/
theorem Collect_spec_witness :
    WF ([⟨"a", 1⟩, ⟨"b", 0⟩, ⟨"c", 3⟩] : GoMap String Int) ∧
    index (Collect ([⟨"a", 1⟩, ⟨"b", 0⟩, ⟨"c", 3⟩] : GoMap String Int)
        (fun _ v => (2 * v, decide (v > 0)))) "c"
      = some (2 * 3) :=
  ⟨by decide,
   (Collect_spec ([⟨"a", 1⟩, ⟨"b", 0⟩, ⟨"c", 3⟩] : GoMap String Int) (by decide)
      (fun _ v => (2 * v, decide (v > 0)))).2.1 "c" 3 (by decide) (by decide)⟩

/-- C14: for every map `c`, a key maps to `x` in `FilterBy c f` iff it maps to `x` in `c`
and `f k x` is true, in `FilterNotBy c f` iff it maps to `x` in `c` and `f k x` is false;
`Filter c v` and `FilterNot c v` are the same with "`x` equals `v`".  The retained and
the excluded result have disjoint keys, together the keys of `c`, and their sizes add
up to `len c`.  `FilterBy {a:1, b:0, c:3} (v > 0) = {a:1, c:3}`. -/
theorem Filter_spec [DecidableEq K] [DecidableEq V] (c : GoMap K V) (hc : WF c)
    (f : K → V → Bool) (v : V) :
    ((∀ k x, index (FilterBy c f) k = some x ↔ (index c k = some x ∧ f k x = true)) ∧
     (∀ k x, index (FilterNotBy c f) k = some x ↔ (index c k = some x ∧ f k x = false)) ∧
     (∀ k, ¬ (k ∈ keysOf (FilterBy c f) ∧ k ∈ keysOf (FilterNotBy c f))) ∧
     (∀ k, (k ∈ keysOf (FilterBy c f) ∨ k ∈ keysOf (FilterNotBy c f)) ↔ k ∈ keysOf c) ∧
     len (FilterBy c f) + len (FilterNotBy c f) = len c) ∧
    ((∀ k x, index (Filter c v) k = some x ↔ (index c k = some x ∧ x = v)) ∧
     (∀ k x, index (FilterNot c v) k = some x ↔ (index c k = some x ∧ x ≠ v)) ∧
     (∀ k, ¬ (k ∈ keysOf (Filter c v) ∧ k ∈ keysOf (FilterNot c v))) ∧
     (∀ k, (k ∈ keysOf (Filter c v) ∨ k ∈ keysOf (FilterNot c v)) ↔ k ∈ keysOf c) ∧
     len (Filter c v) + len (FilterNot c v) = len c) ∧
    FilterBy ([⟨"a", 1⟩, ⟨"b", 0⟩, ⟨"c", 3⟩] : GoMap String Int) (fun _ x => decide (x > 0))
      = [⟨"a", 1⟩, ⟨"c", 3⟩] := by
  refine ⟨?_, ?_, by decide⟩
  · rw [FilterBy_eq c hc f, FilterNotBy_eq c hc f]
    have h := filter_split c hc (fun e => f e.Key e.Value)
    exact ⟨h.2.2.1, h.2.2.2, h.1, h.2.1, len_filter_add c (fun e => f e.Key e.Value)⟩
  · rw [Filter_eq c hc v, FilterNot_eq c hc v]
    have h := filter_split c hc (fun e => decide (e.Value = v))
    refine ⟨?_, ?_, h.1, h.2.1, len_filter_add c (fun e => decide (e.Value = v))⟩
    · intro k x
      simpa using h.2.2.1 k x
    · intro k x
      simpa using h.2.2.2 k x

/-- Witness for C14: in `FilterBy {a:1, b:0, c:3} (v > 0)` the key `a` maps to 1. -/
theorem Filter_spec_witness :
    WF ([⟨"a", 1⟩, ⟨"b", 0⟩, ⟨"c", 3⟩] : GoMap String Int) ∧
    (index (FilterBy ([⟨"a", 1⟩, ⟨"b", 0⟩, ⟨"c", 3⟩] : GoMap String Int)
        (fun _ x => decide (x > 0))) "a" = some 1
      ↔ (index ([⟨"a", 1⟩, ⟨"b", 0⟩, ⟨"c", 3⟩] : GoMap String Int) "a" = some 1 ∧
          decide ((1 : Int) > 0) = true)) :=
  ⟨by decide,
   (Filter_spec ([⟨"a", 1⟩, ⟨"b", 0⟩, ⟨"c", 3⟩] : GoMap String Int) (by decide)
      (fun _ x => decide (x > 0)) 0).1.1 "a" 1⟩

end SelectTheorems

/-! ## Sample, Get and GetOrElse -/

section AccessLemmas

variable {K V : Type}

theorem sampleLoop_get (n : Nat) (t : List (Entry K V)) (i : Nat) (k0 : K) (e : Entry K V)
    (hi : i ≤ n) (he : t[n - i]? = some e) : sampleLoop n t i k0 = e.Key := by
  induction t generalizing i k0 with
  | nil => simp at he
  | cons x t ih =>
    by_cases h : i = n
    · subst h
      simp only [Nat.sub_self, List.getElem?_cons_zero, Option.some.injEq] at he
      simp [sampleLoop, he]
    · simp only [sampleLoop, if_neg h]
      apply ih (i + 1) x.Key (by omega)
      have h1 : n - i = (n - (i + 1)) + 1 := by omega
      rw [h1, List.getElem?_cons_succ] at he
      exact he

theorem Intn_eq_some (r : Rand) (m n : Nat) (h : Intn r m = some n) :
    n < m ∧ n = r m % m := by
  unfold Intn at h
  by_cases hm : m = 0
  · simp [hm] at h
  · simp only [if_neg hm, Option.some.injEq] at h
    exact ⟨by rw [← h]; exact Nat.mod_lt _ (Nat.pos_of_ne_zero hm), h.symm⟩

theorem Intn_const (m n : Nat) (h : n < m) : Intn (fun _ => n) m = some n := by
  unfold Intn
  have hm : m ≠ 0 := by omega
  simp [hm, Nat.mod_eq_of_lt h]

theorem sampleLoop_key (es : GoMap K V) (n : Nat) (k0 : K) (hn : n < es.length) :
    (keysOf es)[n]? = some (sampleLoop n es 0 k0) := by
  have he : es[n - 0]? = some es[n] := by
    simp [List.getElem?_eq_getElem hn]
  rw [sampleLoop_get n es 0 k0 es[n] (Nat.zero_le n) he]
  simp [keysOf, List.getElem?_eq_getElem hn]

theorem Sample_of_draw [DecidableEq K] [Inhabited K] [Inhabited V] (es : GoMap K V)
    (hes : WF es) (r : Rand) (n : Nat) (h : Intn r (len es) = some n) :
    ∃ e, es[n]? = some e ∧ sampleLoop n es 0 default = e.Key ∧ Sample es r = some e.Value ∧
      e ∈ es := by
  have hn : n < es.length := (Intn_eq_some r (len es) n h).1
  have he : es[n]? = some es[n] := List.getElem?_eq_getElem hn
  have hmem : es[n] ∈ es := List.getElem?_mem he
  have hk : sampleLoop n es 0 default = es[n].Key :=
    sampleLoop_get n es 0 default es[n] (Nat.zero_le n)
      (by simp [List.getElem?_eq_getElem hn])
  refine ⟨es[n], he, hk, ?_, hmem⟩
  have hi : index es es[n].Key = some es[n].Value :=
    (index_eq_some_iff es hes es[n].Key es[n].Value).2 hmem
  simp [Sample, h, hk, indexOrZero, hi]

end AccessLemmas

section AccessTheorems

variable {K V : Type}

/-- C15: `Sample` of the empty map fails for every random source (the call
`r.Intn(0)` panics) and returns no value; on a non-empty map `c`, for every random
source and every enumeration order, the draw lies in `[0, len c)`, `Sample` does not
fail, and it returns the value of an entry of `c`. -/
theorem Sample_spec [DecidableEq K] [Inhabited K] [Inhabited V] (c es : GoMap K V)
    (hc : WF c) (hp : es.Perm c) (hne : c ≠ []) (r : Rand) :
    (∀ r0 : Rand, Sample ([] : GoMap K V) r0 = none) ∧
    (∃ n, n < len c ∧ Intn r (len es) = some n) ∧
    (∃ e ∈ c, Sample es r = some e.Value) ∧
    (∃ k x, index c k = some x ∧ Sample es r = some x) := by
  have hes : WF es := WF_perm c es hc hp
  have hlen : len es = len c := hp.length_eq
  have hpos : len c ≠ 0 := by
    intro h0
    exact hne (List.length_eq_zero.1 h0)
  have hd : Intn r (len es) = some (r (len es) % len es) := by
    unfold Intn
    rw [hlen]
    simp [hpos]
  obtain ⟨e, _, _, hs, hmem⟩ := Sample_of_draw es hes r _ hd
  have hmc : e ∈ c := hp.mem_iff.1 hmem
  refine ⟨fun _ => rfl, ⟨_, ?_, hd⟩, ⟨e, hmc, hs⟩, ⟨e.Key, e.Value, ?_, hs⟩⟩
  · rw [← hlen]
    exact (Intn_eq_some r (len es) _ hd).1
  · exact (index_eq_some_iff c hc e.Key e.Value).2 hmc

/-- Witness for C15: `{a:1, b:0, c:3}` enumerated as `b, c, a`, with a source that
yields 7. -/
theorem Sample_spec_witness :
    WF ([⟨"a", 1⟩, ⟨"b", 0⟩, ⟨"c", 3⟩] : GoMap String Int) ∧
    List.Perm ([⟨"b", 0⟩, ⟨"c", 3⟩, ⟨"a", 1⟩] : GoMap String Int)
      [⟨"a", 1⟩, ⟨"b", 0⟩, ⟨"c", 3⟩] ∧
    ([⟨"a", 1⟩, ⟨"b", 0⟩, ⟨"c", 3⟩] : GoMap String Int) ≠ [] ∧
    Sample ([] : GoMap String Int) (fun _ => 7) = none :=
  ⟨by decide, by decide, by decide,
   (Sample_spec ([⟨"a", 1⟩, ⟨"b", 0⟩, ⟨"c", 3⟩] : GoMap String Int)
      [⟨"b", 0⟩, ⟨"c", 3⟩, ⟨"a", 1⟩] (by decide) (by decide) (by decide) (fun _ => 7)).1
      (fun _ => 7)⟩

/-- C16: for every map `c`, every enumeration order `es` of it and every draw `n`, the
loop of `Sample` stops on the key of the `n`-th entry of `es` and `Sample` returns the
value of that entry, which is the value `c` stores under that key; every `n` below
`len c` is the draw of some source; two different draws pick different keys; and every
key of `c` is picked by exactly one draw. -/
theorem Sample_by_index [DecidableEq K] [Inhabited K] [Inhabited V] (c es : GoMap K V)
    (hc : WF c) (hp : es.Perm c) :
    (∀ (r : Rand) (n : Nat), Intn r (len es) = some n →
      ∃ e, es[n]? = some e ∧ sampleLoop n es 0 default = e.Key ∧
        Sample es r = some e.Value ∧ index c e.Key = some e.Value) ∧
    (∀ n, n < len c → ∃ r : Rand, Intn r (len es) = some n) ∧
    (∀ n1 n2, n1 < len c → n2 < len c →
      sampleLoop n1 es 0 default = sampleLoop n2 es 0 default → n1 = n2) ∧
    (∀ k ∈ keysOf c, ∃! n, n < len c ∧ sampleLoop n es 0 default = k) := by
  have hes : WF es := WF_perm c es hc hp
  have hlen : len es = len c := hp.length_eq
  have hinj : ∀ n1 n2, n1 < len c → n2 < len c →
      sampleLoop n1 es 0 default = sampleLoop n2 es 0 default → n1 = n2 := by
    intro n1 n2 h1 h2 heq
    rw [← hlen] at h1 h2
    have hk1 := sampleLoop_key es n1 default h1
    have hk2 := sampleLoop_key es n2 default h2
    have hl : n1 < (keysOf es).length := by simpa [keysOf] using h1
    exact List.getElem?_inj hl hes (by rw [hk1, hk2, heq])
  refine ⟨?_, ?_, hinj, ?_⟩
  · intro r n h
    obtain ⟨e, he, hk, hs, hmem⟩ := Sample_of_draw es hes r n h
    exact ⟨e, he, hk, hs, (index_eq_some_iff c hc e.Key e.Value).2 (hp.mem_iff.1 hmem)⟩
  · intro n hn
    exact ⟨fun _ => n, Intn_const (len es) n (by rw [hlen]; exact hn)⟩
  · intro k hk
    have hk1 : k ∈ keysOf es := ((hp.map Entry.Key).mem_iff).2 hk
    obtain ⟨n, hn⟩ := List.mem_iff_getElem?.1 hk1
    have hlt : n < es.length := by
      obtain ⟨h, _⟩ := List.getElem?_eq_some.1 hn
      simpa [keysOf] using h
    have hkn : sampleLoop n es 0 default = k := by
      have h2 := sampleLoop_key es n default hlt
      rw [hn] at h2
      exact (Option.some.inj h2).symm
    have hltc : n < len c := by
      rw [← hlen]
      exact hlt
    refine ⟨n, ⟨hltc, hkn⟩, ?_⟩
    rintro n2 ⟨h2, hk2⟩
    exact hinj n2 n h2 hltc (hk2.trans hkn.symm)

/-- Witness for C16: on `{a:1, b:0, c:3}` enumerated as `b, c, a` the draw 1 returns the
value of `c`. -/
theorem Sample_by_index_witness :
    WF ([⟨"a", 1⟩, ⟨"b", 0⟩, ⟨"c", 3⟩] : GoMap String Int) ∧
    List.Perm ([⟨"b", 0⟩, ⟨"c", 3⟩, ⟨"a", 1⟩] : GoMap String Int)
      [⟨"a", 1⟩, ⟨"b", 0⟩, ⟨"c", 3⟩] ∧
    ∃ r : Rand, Intn r (len ([⟨"b", 0⟩, ⟨"c", 3⟩, ⟨"a", 1⟩] : GoMap String Int)) = some 1 :=
  ⟨by decide, by decide,
   (Sample_by_index ([⟨"a", 1⟩, ⟨"b", 0⟩, ⟨"c", 3⟩] : GoMap String Int)
      [⟨"b", 0⟩, ⟨"c", 3⟩, ⟨"a", 1⟩] (by decide) (by decide)).2.1 1 (by decide)⟩

/-- C17: for every map `c`, key `k` and default `d`: when `c` holds the entry `(k, x)`,
`Get` returns `(x, true)` and `GetOrElse` returns `x` whatever `d` is; when `k` is not a
key of `c`, `Get` returns the zero value and `false` and `GetOrElse` returns `d`; the map
left behind by either call is `c`, so after `GetOrElse` an absent key is still absent. -/
theorem Get_GetOrElse_spec [DecidableEq K] [Inhabited V] (c : GoMap K V) (hc : WF c)
    (k : K) (d : V) :
    (∀ x, (⟨k, x⟩ : Entry K V) ∈ c → Get c k = (x, true) ∧ GetOrElse c k d = x) ∧
    (k ∉ keysOf c → Get c k = (default, false) ∧ GetOrElse c k d = d) ∧
    (GetRun c k).1 = Get c k ∧ (GetRun c k).2 = c ∧
    (GetOrElseRun c k d).1 = GetOrElse c k d ∧ (GetOrElseRun c k d).2 = c ∧
    (k ∉ keysOf c → Get (GetOrElseRun c k d).2 k = (default, false) ∧
      k ∉ keysOf (GetOrElseRun c k d).2 ∧ len (GetOrElseRun c k d).2 = len c) := by
  have hab : k ∉ keysOf c → Get c k = (default, false) ∧ GetOrElse c k d = d := by
    intro h
    have hi := (index_eq_none_iff c k).2 h
    exact ⟨Get_of_index_none c k hi, by simp [GetOrElse, hi]⟩
  refine ⟨?_, hab, rfl, rfl, rfl, rfl, ?_⟩
  · intro x hx
    have hi := (index_eq_some_iff c hc k x).2 hx
    exact ⟨Get_of_index_some c k x hi, by simp [GetOrElse, hi]⟩
  · intro h
    exact ⟨(hab h).1, h, rfl⟩

/-- Witness for C17: in `{a:1, b:0, c:3}` the key `b` holds 0, and `GetOrElse` with the
default 9 returns the stored 0. -/
theorem Get_GetOrElse_spec_witness :
    WF ([⟨"a", 1⟩, ⟨"b", 0⟩, ⟨"c", 3⟩] : GoMap String Int) ∧
    (Get ([⟨"a", 1⟩, ⟨"b", 0⟩, ⟨"c", 3⟩] : GoMap String Int) "b" = (0, true) ∧
      GetOrElse ([⟨"a", 1⟩, ⟨"b", 0⟩, ⟨"c", 3⟩] : GoMap String Int) "b" 9 = 0) :=
  ⟨by decide,
   (Get_GetOrElse_spec ([⟨"a", 1⟩, ⟨"b", 0⟩, ⟨"c", 3⟩] : GoMap String Int) (by decide)
      "b" 9).1 0 (by decide)⟩

end AccessTheorems

/-! ## Find, Count, Contains and the By reductions against Map -/

section SearchLemmas

variable {K V V1 : Type}

theorem Find_eq_FindBy [DecidableEq V] [Inhabited K] [Inhabited V] (m : GoMap K V) (v : V) :
    Find m v = FindBy m (fun _ x => decide (v = x)) := by
  induction m with
  | nil => rfl
  | cons e t ih =>
    by_cases h : v = e.Value <;> simp [Find, FindBy, h, ih]

theorem FindBy_found [Inhabited K] [Inhabited V] (m : GoMap K V) (f : K → V → Bool)
    (h : (FindBy m f).2 = true) :
    (FindBy m f).1 ∈ m ∧ f (FindBy m f).1.Key (FindBy m f).1.Value = true := by
  induction m with
  | nil => simp [FindBy] at h
  | cons e t ih =>
    by_cases hf : f e.Key e.Value = true
    · simp [FindBy, hf]
    · simp only [FindBy, if_neg hf] at h ⊢
      exact ⟨List.mem_cons_of_mem _ (ih h).1, (ih h).2⟩

theorem FindBy_found_iff [Inhabited K] [Inhabited V] (m : GoMap K V) (f : K → V → Bool) :
    (FindBy m f).2 = true ↔ ∃ e ∈ m, f e.Key e.Value = true := by
  constructor
  · intro h
    exact ⟨_, (FindBy_found m f h).1, (FindBy_found m f h).2⟩
  · rintro ⟨e, he, hfe⟩
    induction m with
    | nil => simp at he
    | cons x t ih =>
      by_cases hf : f x.Key x.Value = true
      · simp [FindBy, hf]
      · simp only [FindBy, if_neg hf]
        rcases List.mem_cons.1 he with h1 | h1
        · subst h1
          exact absurd hfe hf
        · exact ih h1

theorem FindBy_not_found [Inhabited K] [Inhabited V] (m : GoMap K V) (f : K → V → Bool)
    (h : ¬ ∃ e ∈ m, f e.Key e.Value = true) :
    FindBy m f = (⟨default, default⟩, false) := by
  induction m with
  | nil => rfl
  | cons x t ih =>
    have hf : ¬ f x.Key x.Value = true := fun hx => h ⟨x, List.mem_cons_self _ _, hx⟩
    simp only [FindBy, if_neg hf]
    exact ih (fun ⟨e, he, hfe⟩ => h ⟨e, List.mem_cons_of_mem _ he, hfe⟩)

theorem exists_mem_iff_index [DecidableEq K] (c es : GoMap K V) (hc : WF c) (hp : es.Perm c)
    (f : K → V → Bool) :
    (∃ e ∈ es, f e.Key e.Value = true) ↔ ∃ k x, index c k = some x ∧ f k x = true := by
  constructor
  · rintro ⟨e, he, hfe⟩
    exact ⟨e.Key, e.Value, (index_eq_some_iff c hc e.Key e.Value).2 (hp.mem_iff.1 he), hfe⟩
  · rintro ⟨k, x, hi, hfe⟩
    exact ⟨⟨k, x⟩, hp.mem_iff.2 ((index_eq_some_iff c hc k x).1 hi), hfe⟩

theorem countLoop_eq (q : Entry K V → Bool) (l : List (Entry K V)) (a : Nat)
    (h : ((a + l.length : Nat) : Int) ≤ maxInt) :
    l.foldl (fun c e => if q e = true then addInt c 1 else c) (a : Int)
      = ((a + (l.filter q).length : Nat) : Int) := by
  induction l generalizing a with
  | nil => simp
  | cons e t ih =>
    simp only [List.length_cons] at h
    simp only [List.foldl_cons]
    by_cases hq : q e = true
    · have h1 : addInt (a : Int) 1 = ((a + 1 : Nat) : Int) := by
        unfold addInt
        rw [wrapInt_of_IsInt]
        · push_cast
          rfl
        · unfold IsInt minInt
          constructor
          · omega
          · push_cast at h
            omega
      rw [if_pos hq, h1, ih (a + 1) (by push_cast at h ⊢; omega)]
      simp only [List.filter_cons, hq, if_true, List.length_cons]
      push_cast
      omega
    · rw [if_neg hq, ih a (by push_cast at h ⊢; omega)]
      simp [List.filter_cons, hq]

theorem CountBy_eq (m : GoMap K V) (f : K → V → Bool) (h : (len m : Int) ≤ maxInt) :
    CountBy m f = ((m.filter (fun e => f e.Key e.Value)).length : Int) := by
  have h1 := countLoop_eq (fun e => f e.Key e.Value) m 0 (by simpa [len] using h)
  simpa [CountBy] using h1

theorem Count_eq_CountBy [DecidableEq V] (m : GoMap K V) (v : V) :
    Count m v = CountBy m (fun _ x => decide (x = v)) := by
  simp [Count, CountBy]

theorem ContainsBy_iff (m : GoMap K V) (f : K → V → Bool) :
    ContainsBy m f = true ↔ ∃ e ∈ m, f e.Key e.Value = true := by
  induction m with
  | nil => simp [ContainsBy]
  | cons x t ih =>
    by_cases hf : f x.Key x.Value = true
    · simp [ContainsBy, hf]
    · simp [ContainsBy, hf, ih]

theorem Contains_eq_ContainsBy [DecidableEq V] (m : GoMap K V) (v : V) :
    Contains m v = ContainsBy m (fun _ x => decide (x = v)) := by
  induction m with
  | nil => rfl
  | cons x t ih =>
    by_cases h : x.Value = v <;> simp [Contains, ContainsBy, h, ih]

theorem filter_length_pos_iff (m : GoMap K V) (q : Entry K V → Bool) :
    (0 : Int) < ((m.filter q).length : Int) ↔ ∃ e ∈ m, q e = true := by
  rw [Int.natCast_pos, List.length_pos_iff_exists_mem]
  simp [List.mem_filter]

theorem Max_perm [LinearOrder V] [Inhabited V] (es1 es2 : GoMap K V) (hp : es1.Perm es2) :
    Max es1 = Max es2 := by
  have hg : ∀ a b : V, (if a < b then b else a) = max a b := by
    intro a b
    by_cases h : a < b
    · rw [if_pos h, max_eq_right (le_of_lt h)]
    · rw [if_neg h, max_eq_left (not_lt.1 h)]
  exact Reduce_perm_aux (fun a b => if a < b then b else a)
    (fun a b c => by simp only [hg]; exact max_assoc a b c)
    (fun a b => by simp only [hg]; exact max_comm a b) es1 es2 hp

theorem Min_perm [LinearOrder V] [Inhabited V] (es1 es2 : GoMap K V) (hp : es1.Perm es2) :
    Min es1 = Min es2 := by
  have hg : ∀ a b : V, (if a > b then b else a) = min a b := by
    intro a b
    by_cases h : a > b
    · rw [if_pos h, min_eq_right (le_of_lt h)]
    · rw [if_neg h, min_eq_left (not_lt.1 h)]
  exact Reduce_perm_aux (fun a b => if a > b then b else a)
    (fun a b c => by simp only [hg]; exact min_assoc a b c)
    (fun a b => by simp only [hg]; exact min_comm a b) es1 es2 hp

theorem SumBy_eq (m : GoMap K V1) (f : K → V1 → Int) :
    SumBy m f = wrapInt ((m.map (fun e => f e.Key e.Value)).sum) := by
  have h : SumBy m f = (m.map (fun e => f e.Key e.Value)).foldl addInt 0 := by
    unfold SumBy Fold
    rw [List.foldl_map]
    rfl
  rw [h, foldl_addInt _ 0 (by decide), zero_add]

end SearchLemmas

section SearchTheorems

variable {K V V1 : Type}

/-- C18: for every map `c`, every enumeration order `es` of it and every value `v`,
`Find` reports `true` iff some key of `c` maps to `v`, and then the entry returned is an
entry of `c` whose value is `v`; when no key maps to `v` it returns the zero entry and
`false`.  `FindBy` is the same with "`f k x` is true" in place of "`x` equals `v`". -/
theorem Find_spec [DecidableEq K] [DecidableEq V] [Inhabited K] [Inhabited V]
    (c es : GoMap K V) (hc : WF c) (hp : es.Perm c) (v : V) (f : K → V → Bool) :
    (((Find es v).2 = true ↔ ∃ k, index c k = some v) ∧
     ((Find es v).2 = true →
       index c (Find es v).1.Key = some (Find es v).1.Value ∧ (Find es v).1.Value = v) ∧
     ((¬ ∃ k, index c k = some v) → Find es v = (⟨default, default⟩, false))) ∧
    (((FindBy es f).2 = true ↔ ∃ k x, index c k = some x ∧ f k x = true) ∧
     ((FindBy es f).2 = true →
       index c (FindBy es f).1.Key = some (FindBy es f).1.Value ∧
       f (FindBy es f).1.Key (FindBy es f).1.Value = true) ∧
     ((¬ ∃ k x, index c k = some x ∧ f k x = true) →
       FindBy es f = (⟨default, default⟩, false))) := by
  have hby : ∀ g : K → V → Bool,
      ((FindBy es g).2 = true ↔ ∃ k x, index c k = some x ∧ g k x = true) ∧
      ((FindBy es g).2 = true →
        index c (FindBy es g).1.Key = some (FindBy es g).1.Value ∧
        g (FindBy es g).1.Key (FindBy es g).1.Value = true) ∧
      ((¬ ∃ k x, index c k = some x ∧ g k x = true) →
        FindBy es g = (⟨default, default⟩, false)) := by
    intro g
    refine ⟨?_, ?_, ?_⟩
    · rw [FindBy_found_iff, exists_mem_iff_index c es hc hp g]
    · intro h
      obtain ⟨h1, h2⟩ := FindBy_found es g h
      exact ⟨(index_eq_some_iff c hc _ _).2 (hp.mem_iff.1 h1), h2⟩
    · intro h
      apply FindBy_not_found
      rw [exists_mem_iff_index c es hc hp g]
      exact h
  refine ⟨?_, hby f⟩
  rw [Find_eq_FindBy]
  obtain ⟨h1, h2, h3⟩ := hby (fun _ x => decide (v = x))
  refine ⟨?_, ?_, ?_⟩
  · rw [h1]
    constructor
    · rintro ⟨k, x, hi, hx⟩
      have hv : v = x := of_decide_eq_true hx
      exact ⟨k, by rw [hv]; exact hi⟩
    · rintro ⟨k, hi⟩
      exact ⟨k, v, hi, decide_eq_true rfl⟩
  · intro h
    obtain ⟨h4, h5⟩ := h2 h
    exact ⟨h4, (of_decide_eq_true h5).symm⟩
  · intro h
    apply h3
    rintro ⟨k, x, hi, hx⟩
    have hv : v = x := of_decide_eq_true hx
    exact h ⟨k, by rw [hv]; exact hi⟩

/-- Witness for C18: looking for the value 3 in `{a:1, b:0, c:3}` enumerated as
`b, c, a`. -/
theorem Find_spec_witness :
    WF ([⟨"a", 1⟩, ⟨"b", 0⟩, ⟨"c", 3⟩] : GoMap String Int) ∧
    List.Perm ([⟨"b", 0⟩, ⟨"c", 3⟩, ⟨"a", 1⟩] : GoMap String Int)
      [⟨"a", 1⟩, ⟨"b", 0⟩, ⟨"c", 3⟩] ∧
    (Find ([⟨"b", 0⟩, ⟨"c", 3⟩, ⟨"a", 1⟩] : GoMap String Int) 3).1.Value = 3 :=
  ⟨by decide, by decide,
   ((Find_spec ([⟨"a", 1⟩, ⟨"b", 0⟩, ⟨"c", 3⟩] : GoMap String Int)
      [⟨"b", 0⟩, ⟨"c", 3⟩, ⟨"a", 1⟩] (by decide) (by decide) 3 (fun _ _ => false)).1.2.1
      (by decide)).2⟩

/-- C19: for every map `c` (of at most `maxInt` entries, as `len` is an `int`) and every
enumeration order `es` of it, `CountBy` is the number of entries of `c` that satisfy `f`,
which is `len (FilterBy c f)`, so it lies between 0 and `len c`; `Count` is the same
with "value equals `v`"; `ContainsBy` is true iff `CountBy` is positive, and `Contains`
iff `Count` is positive. -/
theorem Count_spec [DecidableEq K] [DecidableEq V] (c es : GoMap K V) (hc : WF c)
    (hp : es.Perm c) (hlen : (len c : Int) ≤ maxInt) (f : K → V → Bool) (v : V) :
    (CountBy es f = (len (FilterBy c f) : Int) ∧
     CountBy es f = ((c.countP (fun e => f e.Key e.Value) : Nat) : Int) ∧
     0 ≤ CountBy es f ∧ CountBy es f ≤ (len c : Int)) ∧
    (Count es v = (len (Filter c v) : Int) ∧
     Count es v = ((c.countP (fun e => decide (e.Value = v)) : Nat) : Int) ∧
     0 ≤ Count es v ∧ Count es v ≤ (len c : Int)) ∧
    (ContainsBy es f = true ↔ 0 < CountBy es f) ∧
    (Contains es v = true ↔ 0 < Count es v) := by
  have hl : (len es : Int) ≤ maxInt := by
    have h1 : len es = len c := hp.length_eq
    rw [h1]
    exact hlen
  have hcount : ∀ g : K → V → Bool,
      CountBy es g = (((c.filter (fun e => g e.Key e.Value)).length : Nat) : Int) := by
    intro g
    rw [CountBy_eq es g hl, (hp.filter (fun e => g e.Key e.Value)).length_eq]
  have hbound : ∀ g : K → V → Bool, 0 ≤ CountBy es g ∧ CountBy es g ≤ (len c : Int) := by
    intro g
    rw [hcount g]
    exact ⟨Int.natCast_nonneg _, Int.ofNat_le.2 (List.length_filter_le _ _)⟩
  have hcont : ∀ g : K → V → Bool, ContainsBy es g = true ↔ 0 < CountBy es g := by
    intro g
    rw [ContainsBy_iff, CountBy_eq es g hl, filter_length_pos_iff]
  refine ⟨⟨?_, ?_, (hbound f).1, (hbound f).2⟩, ⟨?_, ?_, ?_, ?_⟩, hcont f, ?_⟩
  · rw [hcount f, FilterBy_eq c hc f]
    rfl
  · rw [hcount f, List.countP_eq_length_filter]
  · rw [Count_eq_CountBy, hcount, Filter_eq c hc v]
    rfl
  · rw [Count_eq_CountBy, hcount, List.countP_eq_length_filter]
  · rw [Count_eq_CountBy]
    exact (hbound _).1
  · rw [Count_eq_CountBy]
    exact (hbound _).2
  · rw [Contains_eq_ContainsBy, Count_eq_CountBy]
    exact hcont _

/-- Witness for C19: counting the positive values of `{a:1, b:0, c:3}` enumerated as
`b, c, a`. -/
theorem Count_spec_witness :
    WF ([⟨"a", 1⟩, ⟨"b", 0⟩, ⟨"c", 3⟩] : GoMap String Int) ∧
    List.Perm ([⟨"b", 0⟩, ⟨"c", 3⟩, ⟨"a", 1⟩] : GoMap String Int)
      [⟨"a", 1⟩, ⟨"b", 0⟩, ⟨"c", 3⟩] ∧
    ((len ([⟨"a", 1⟩, ⟨"b", 0⟩, ⟨"c", 3⟩] : GoMap String Int) : Nat) : Int) ≤ maxInt ∧
    CountBy ([⟨"b", 0⟩, ⟨"c", 3⟩, ⟨"a", 1⟩] : GoMap String Int) (fun _ x => decide (x > 0))
      = (len (FilterBy ([⟨"a", 1⟩, ⟨"b", 0⟩, ⟨"c", 3⟩] : GoMap String Int)
          (fun _ x => decide (x > 0))) : Int) :=
  ⟨by decide, by decide, by decide,
   (Count_spec ([⟨"a", 1⟩, ⟨"b", 0⟩, ⟨"c", 3⟩] : GoMap String Int)
      [⟨"b", 0⟩, ⟨"c", 3⟩, ⟨"a", 1⟩] (by decide) (by decide) (by decide)
      (fun _ x => decide (x > 0)) 0).1.1⟩

/-- C20: for every map `c`, empty or not, every projection `f` into Go ints, and every
choice of the enumeration orders (`es1` for the By reduction, `es` for `Map`, `es2` for
the reduction of the map that `Map` returns), `MaxBy c f = Max (Map c f)`,
`MinBy c f = Min (Map c f)` and `SumBy c f = Sum (Map c f)`. -/
theorem By_eq_Map [DecidableEq K] (c es1 es : GoMap K V1) (es2 : GoMap K Int)
    (f : K → V1 → Int) (hc : WF c) (h1 : es1.Perm c) (h : es.Perm c)
    (h2 : es2.Perm (Map es f)) (hf : ∀ e ∈ c, IsInt (f e.Key e.Value)) :
    MaxBy es1 f = Max es2 ∧ MinBy es1 f = Min es2 ∧ SumBy es1 f = Sum es2 := by
  have hes : WF es := WF_perm c es hc h
  rw [Map_eq es hes f] at h2
  have h3 : es2.Perm (es1.map (fun e => (⟨e.Key, f e.Key e.Value⟩ : Entry K Int))) :=
    h2.trans ((h.trans h1.symm).map _)
  refine ⟨?_, ?_, ?_⟩
  · rw [MaxBy_eq_Max_map]
    exact (Max_perm _ _ h3).symm
  · rw [MinBy_eq_Min_map]
    exact (Min_perm _ _ h3).symm
  · have hv : ∀ e ∈ es2, IsInt e.Value := by
      intro e he
      obtain ⟨x, hx, rfl⟩ := List.mem_map.1 (h3.mem_iff.1 he)
      exact hf x (h1.mem_iff.1 hx)
    rw [SumBy_eq, Sum_eq_wrapInt_sum es2 hv]
    have hs : (valuesOf es2).sum
        = (valuesOf (es1.map (fun e => (⟨e.Key, f e.Key e.Value⟩ : Entry K Int)))).sum :=
      (h3.map Entry.Value).sum_eq
    rw [hs]
    simp [valuesOf, List.map_map, Function.comp_def]

/-- Witness for C20: `{a:1, b:0, c:3}` projected by `v - 10`, with three different
enumeration orders. -/
theorem By_eq_Map_witness :
    WF ([⟨"a", 1⟩, ⟨"b", 0⟩, ⟨"c", 3⟩] : GoMap String Int) ∧
    MaxBy ([⟨"b", 0⟩, ⟨"c", 3⟩, ⟨"a", 1⟩] : GoMap String Int) (fun _ v => v - 10)
      = Max ([⟨"c", -7⟩, ⟨"b", -10⟩, ⟨"a", -9⟩] : GoMap String Int) ∧
    MinBy ([⟨"b", 0⟩, ⟨"c", 3⟩, ⟨"a", 1⟩] : GoMap String Int) (fun _ v => v - 10)
      = Min ([⟨"c", -7⟩, ⟨"b", -10⟩, ⟨"a", -9⟩] : GoMap String Int) ∧
    SumBy ([⟨"b", 0⟩, ⟨"c", 3⟩, ⟨"a", 1⟩] : GoMap String Int) (fun _ v => v - 10)
      = Sum ([⟨"c", -7⟩, ⟨"b", -10⟩, ⟨"a", -9⟩] : GoMap String Int) :=
  ⟨by decide,
   By_eq_Map ([⟨"a", 1⟩, ⟨"b", 0⟩, ⟨"c", 3⟩] : GoMap String Int)
     [⟨"b", 0⟩, ⟨"c", 3⟩, ⟨"a", 1⟩] [⟨"a", 1⟩, ⟨"b", 0⟩, ⟨"c", 3⟩]
     [⟨"c", -7⟩, ⟨"b", -10⟩, ⟨"a", -9⟩] (fun _ v => v - 10)
     (by decide) (by decide) (by decide) (by decide) (by decide)⟩

end SearchTheorems

end Maps
